import Mathlib

/-!
# Ramer–Douglas–Peucker simplification (`rdp.Simplify`)

A shallow embedding of `src/rdp/rdp.go`.  Coordinates live in an arbitrary
linearly ordered field `α` and the square root used by the distance helpers
is a parameter `sqrt : α → α` (Go: `math.Sqrt`); results that depend on the
arithmetic of the square root are stated over `ℝ` with `Real.sqrt`.

`F64` models the `float64` values the code runs on, with rounding, overflow
and NaN; `Simplify64`, `scan64` and `perpendicularDistance64` are the same
functions on it.  The error bound, the maximum scan and the collapse of
collinear curves are stated on them, since rounding and overflow change what
holds.

The Go function returns a reslice of its argument.  `Simplify` is the value it
returns, as a list; `SimplifyInPlace` is the same code on an explicit backing
array, and `SimplifyInPlace_safe` relates the two.
-/

namespace rdp

/-- Point represents coordinates in the 2D plane; `Index` is the optional
reference to the origin data. -/
structure Point (α : Type) where
  X : α
  Y : α
  Index : Int
deriving DecidableEq

variable {α : Type}

/-- Distance between two points: `math.Sqrt(x*x + y*y)` with
`x = p2.X - p1.X`, `y = p2.Y - p1.Y`. -/
def euclidean [LinearOrderedField α] (sqrt : α → α) (p1 p2 : Point α) : α :=
  let x := p2.X - p1.X
  let y := p2.Y - p1.Y
  sqrt (x * x + y * y)

/-- Perpendicular distance from `p` to the line through `start` and `end_`;
when `start` and `end_` have the same coordinates it is the distance from `p`
to `start`. -/
def perpendicularDistance [LinearOrderedField α] (sqrt : α → α)
    (p start end_ : Point α) : α :=
  if start.X = end_.X ∧ start.Y = end_.Y then
    euclidean sqrt p start
  else
    let A := end_.Y - start.Y
    let B := start.X - end_.X
    let C := (end_.X * start.Y) - (start.X * end_.Y)
    |A * p.X + B * p.Y + C| / sqrt (A * A + B * B)

/-- The scan loop of `Simplify` (`for i := range points`), run on the points
not yet visited; `i` is the position of the next point and the pair is the
loop state `(index, maxDist)`. -/
def scan [LinearOrderedField α] (sqrt : α → α) (first last : Point α) :
    List (Point α) → Nat → Nat × α → Nat × α
  | [], _, st => st
  | p :: ps, i, st =>
    let d := perpendicularDistance sqrt p first last
    if d > st.2 then scan sqrt first last ps (i + 1) (i, d)
    else scan sqrt first last ps (i + 1) st

/-- The boundary adjustment of `Simplify`:
`if index == 0 || index == len(points) then index++`. -/
def splitIndex (index len : Nat) : Nat :=
  if index = 0 ∨ index = len then index + 1 else index

/-- The index left by the scan is the initial one or a visited position. -/
theorem scan_fst_range [LinearOrderedField α] (sqrt : α → α) (first last : Point α)
    (ps : List (Point α)) (i : Nat) (st : Nat × α) :
    (scan sqrt first last ps i st).1 = st.1 ∨
      (i ≤ (scan sqrt first last ps i st).1 ∧
        (scan sqrt first last ps i st).1 < i + ps.length) := by
  induction ps generalizing i st with
  | nil => left; rfl
  | cons p ps ih =>
    simp only [scan, List.length_cons]
    split
    · rcases ih (i + 1) (i, perpendicularDistance sqrt p first last) with h | h
      · right; rw [h]; simp
      · right; omega
    · rcases ih (i + 1) st with h | h
      · left; exact h
      · right; omega

/-- Started from `(0, 0)` at position `0`, the scan of a non-empty curve
leaves an index inside the curve. -/
theorem scan_fst_lt [LinearOrderedField α] (sqrt : α → α) (first last : Point α)
    (ps : List (Point α)) (h : 0 < ps.length) :
    (scan sqrt first last ps 0 (0, 0)).1 < ps.length := by
  rcases scan_fst_range sqrt first last ps 0 (0, 0) with h1 | h1
  · rw [h1]; exact h
  · omega

/-- After the boundary adjustment the split index is neither `0` nor past the
last position. -/
theorem splitIndex_range (index len : Nat) (h : index < len) (h2 : 2 ≤ len) :
    0 < splitIndex index len ∧ splitIndex index len < len := by
  unfold splitIndex
  split <;> omega

/-- Simplify reduces the number of points of a curve
(Ramer–Douglas–Peucker). -/
def Simplify [LinearOrderedField α] (sqrt : α → α) (points : List (Point α))
    (epsilon : α) : List (Point α) :=
  if h : points.length ≤ 2 then
    points
  else
    let first := points[0]
    let last := points[points.length - 1]
    let r := scan sqrt first last points 0 (0, 0)
    if r.2 ≤ epsilon then
      [first, last]
    else
      let index := splitIndex r.1 points.length
      Simplify sqrt (points.take index) epsilon ++
        Simplify sqrt (points.drop index) epsilon
termination_by points.length
decreasing_by
  · have hr := scan_fst_lt sqrt points[0] points[points.length - 1] points (by omega)
    have hk := splitIndex_range _ _ hr (by omega)
    rw [List.length_take]
    omega
  · have hr := scan_fst_lt sqrt points[0] points[points.length - 1] points (by omega)
    have hk := splitIndex_range _ _ hr (by omega)
    rw [List.length_drop]
    omega

/-- The Go function on the slice `arr[lo : lo+len]` of the backing array `arr`
(the capacity of the slice reaches the end of `arr`).  The result is the array
after the call and the length of the returned slice, which starts at `lo`;
`none` stands for an index out of range and for an `append` beyond the capacity
(which would leave the backing array). -/
def SimplifyInPlace [LinearOrderedField α] (sqrt : α → α) (epsilon : α)
    (arr : List (Point α)) (lo len : Nat) : Option (List (Point α) × Nat) :=
  if _h : len ≤ 2 then
    some (arr, len)
  else
    match arr[lo]?, arr[lo + len - 1]? with
    | some first, some last =>
      let r := scan sqrt first last ((arr.drop lo).take len) 0 (0, 0)
      if r.2 ≤ epsilon then
        -- append(points[:0], first, last)
        if lo + 2 ≤ arr.length then
          some ((arr.set lo first).set (lo + 1) last, 2)
        else none
      else
        let index := splitIndex r.1 len
        match SimplifyInPlace sqrt epsilon arr lo index with
        | none => none
        | some (arr1, n1) =>
          match SimplifyInPlace sqrt epsilon arr1 (lo + index) (len - index) with
          | none => none
          | some (arr2, n2) =>
            -- append(Simplify(left, epsilon), Simplify(right, epsilon)...)
            if lo + n1 + n2 ≤ arr2.length then
              some (arr2.take (lo + n1) ++ (arr2.drop (lo + index)).take n2 ++
                arr2.drop (lo + n1 + n2), n1 + n2)
            else none
    | _, _ => none
termination_by len
decreasing_by
  · have hr := scan_fst_range sqrt first last ((arr.drop lo).take len) 0 (0, 0)
    have hl : ((arr.drop lo).take len).length ≤ len := by
      rw [List.length_take]; exact Nat.min_le_left _ _
    have hk := splitIndex_range (scan sqrt first last ((arr.drop lo).take len) 0 (0, 0)).1
      len (by rcases hr with h1 | h1 <;> omega) (by omega)
    exact hk.2
  · have hr := scan_fst_range sqrt first last ((arr.drop lo).take len) 0 (0, 0)
    have hl : ((arr.drop lo).take len).length ≤ len := by
      rw [List.length_take]; exact Nat.min_le_left _ _
    have hk := splitIndex_range (scan sqrt first last ((arr.drop lo).take len) 0 (0, 0)).1
      len (by rcases hr with h1 | h1 <;> omega) (by omega)
    omega

/-- The point `p` satisfies the line equation `A*x + B*y + C = 0` of
`perpendicularDistance` for the chord from `start` to `end_`. -/
def onLine [LinearOrderedField α] (p start end_ : Point α) : Prop :=
  (end_.Y - start.Y) * p.X + (start.X - end_.X) * p.Y +
    ((end_.X * start.Y) - (start.X * end_.Y)) = 0

/-! ## Concrete curves -/

/-- A triangle: the middle point is at distance `1` from the chord. -/
def tri : List (Point ℝ) := [⟨0, 0, 0⟩, ⟨1, 1, 1⟩, ⟨2, 0, 2⟩]

/-- Three points on one horizontal line. -/
def flat : List (Point ℝ) := [⟨0, 0, 0⟩, ⟨1, 0, 1⟩, ⟨2, 0, 2⟩]

/-- Three points on the diagonal. -/
def diag : List (Point ℝ) := [⟨0, 0, 0⟩, ⟨1, 1, 1⟩, ⟨2, 2, 2⟩]

/-- A closed curve: it leaves its start and comes back to it. -/
def loop : List (Point ℝ) := [⟨0, 0, 0⟩, ⟨1, 0, 1⟩, ⟨0, 0, 2⟩]

/-- The curve of the test case "small points". -/
def small : List (Point ℝ) :=
  [⟨0.0, 0.0, 0⟩, ⟨0.1, 0.2, 0⟩, ⟨0.2, 0.3, 0⟩, ⟨0.3, 0.4, 0⟩, ⟨0.4, 0.8, 0⟩, ⟨0.5, 0.1, 0⟩]

/-- A backing array holding the triangle `tri` in cells `1`, `2`, `3`, between
two other cells. -/
def store : List (Point ℝ) := [⟨9, 9, 9⟩, ⟨0, 0, 0⟩, ⟨1, 1, 1⟩, ⟨2, 0, 2⟩, ⟨8, 8, 8⟩]

/-! ## The `float64` code

The same functions on `float64` values: every arithmetic operation is the
exact operation followed by rounding to nearest, ties to even, with overflow
to an infinity (each operation rounded on its own, as the Go compiler does on
amd64), and every comparison with a NaN is false.  The two zeros are
identified: in this program the only divisor is the square root of a sum of
squares, which is never `-0`, and no comparison tells the zeros apart. -/

/-- A `float64` value: a finite number (kept as the rational it denotes), an
infinity with its sign, or a NaN. -/
inductive F64 where
  | fin (q : ℚ)
  | inf (negative : Bool)
  | nan
deriving DecidableEq

namespace F64

/-- Rounding of a rational to the nearest integer, ties to even. -/
def roundHalfEven (t : ℚ) : ℤ :=
  if t - ⌊t⌋ < 1 / 2 then ⌊t⌋
  else if 1 / 2 < t - ⌊t⌋ then ⌊t⌋ + 1
  else if ⌊t⌋ % 2 = 0 then ⌊t⌋
  else ⌊t⌋ + 1

/-- Rounding of an exact result to `float64`: 53 significant bits, exponent of
the unit in the last place not below `-1074` (subnormal numbers), ties to
even, and an infinity when the rounded magnitude reaches `2^1024`. -/
def round (q : ℚ) : F64 :=
  if q = 0 then fin 0
  else
    let e : ℤ := max (Int.log 2 |q|) (-1022)
    let ulp : ℚ := 2 ^ (e - 52)
    let r : ℚ := roundHalfEven (q / ulp) * ulp
    if (2 : ℚ) ^ (1024 : ℤ) ≤ |r| then inf (decide (q < 0)) else fin r

/-- Unary minus. -/
def neg : F64 → F64
  | fin q => fin (-q)
  | inf n => inf (!n)
  | nan => nan

/-- Addition `x + y`. -/
def add : F64 → F64 → F64
  | fin a, fin b => round (a + b)
  | fin _, inf n => inf n
  | inf n, fin _ => inf n
  | inf a, inf b => if a = b then inf a else nan
  | _, _ => nan

/-- Subtraction `x - y`. -/
def sub (x y : F64) : F64 := add x (neg y)

/-- Multiplication `x * y`. -/
def mul : F64 → F64 → F64
  | fin a, fin b => round (a * b)
  | fin a, inf n => if a = 0 then nan else inf (xor (decide (a < 0)) n)
  | inf n, fin b => if b = 0 then nan else inf (xor n (decide (b < 0)))
  | inf a, inf b => inf (xor a b)
  | _, _ => nan

/-- Division `x / y`; a zero divisor counts as `+0`. -/
def div : F64 → F64 → F64
  | fin a, fin b =>
    if b = 0 then (if a = 0 then nan else inf (decide (a < 0)))
    else round (a / b)
  | fin _, inf _ => fin 0
  | inf n, fin b => inf (xor n (decide (b < 0)))
  | _, _ => nan

/-- Absolute value, `math.Abs`. -/
def abs : F64 → F64
  | fin q => fin |q|
  | inf _ => inf false
  | nan => nan

/-- Square root, `math.Sqrt`, correctly rounded: `s` is the integer square
root of `q * 4^k`, scaled to at least 55 bits; when the root is not exact the
odd numerator `2 * s + 1` stands for a value strictly between `s` and `s + 1`,
so that the final rounding is the rounding of the exact root. -/
def sqrt : F64 → F64
  | fin q =>
    if q < 0 then nan
    else if q = 0 then fin 0
    else
      let k : ℤ := 55 - Int.log 2 q / 2
      let s : ℕ := Nat.sqrt ⌊q * 4 ^ k⌋₊
      if (s : ℚ) * s = q * 4 ^ k then round (s / 2 ^ k)
      else round ((2 * s + 1) / 2 ^ (k + 1))
  | inf n => if n then nan else inf false
  | nan => nan

/-- Comparison `x < y`. -/
def lt : F64 → F64 → Bool
  | fin a, fin b => decide (a < b)
  | fin _, inf n => !n
  | inf n, fin _ => n
  | inf a, inf b => a && !b
  | _, _ => false

/-- Comparison `x <= y`. -/
def le : F64 → F64 → Bool
  | fin a, fin b => decide (a ≤ b)
  | fin _, inf n => !n
  | inf n, fin _ => n
  | inf a, inf b => a || !b
  | _, _ => false

/-- Comparison `x > y`. -/
def gt (x y : F64) : Bool := lt y x

/-- Comparison `x == y`. -/
def eq : F64 → F64 → Bool
  | fin a, fin b => decide (a = b)
  | inf a, inf b => a == b
  | _, _ => false

instance : Add F64 := ⟨add⟩
instance : Sub F64 := ⟨sub⟩
instance : Mul F64 := ⟨mul⟩
instance : Div F64 := ⟨div⟩

/-- The `float64` nearest to one tenth, the value of the literal `0.1`. -/
def tenth : ℚ := 3602879701896397 / 2 ^ 55

end F64

/-- The function `euclidean` on `float64` values. -/
def euclidean64 (p1 p2 : Point F64) : F64 :=
  let x := p2.X - p1.X
  let y := p2.Y - p1.Y
  F64.sqrt (x * x + y * y)

/-- The function `perpendicularDistance` on `float64` values. -/
def perpendicularDistance64 (p start end_ : Point F64) : F64 :=
  if F64.eq start.X end_.X ∧ F64.eq start.Y end_.Y then
    euclidean64 p start
  else
    let A := end_.Y - start.Y
    let B := start.X - end_.X
    let C := (end_.X * start.Y) - (start.X * end_.Y)
    F64.abs (A * p.X + B * p.Y + C) / F64.sqrt (A * A + B * B)

/-- The scan loop of `Simplify` on `float64` values. -/
def scan64 (first last : Point F64) :
    List (Point F64) → Nat → Nat × F64 → Nat × F64
  | [], _, st => st
  | p :: ps, i, st =>
    let d := perpendicularDistance64 p first last
    if F64.gt d st.2 then scan64 first last ps (i + 1) (i, d)
    else scan64 first last ps (i + 1) st

/-- The index left by the `float64` scan is the initial one or a visited
position. -/
theorem scan64_fst_range (first last : Point F64)
    (ps : List (Point F64)) (i : Nat) (st : Nat × F64) :
    (scan64 first last ps i st).1 = st.1 ∨
      (i ≤ (scan64 first last ps i st).1 ∧
        (scan64 first last ps i st).1 < i + ps.length) := by
  induction ps generalizing i st with
  | nil => left; rfl
  | cons p ps ih =>
    simp only [scan64, List.length_cons]
    split
    · rcases ih (i + 1) (i, perpendicularDistance64 p first last) with h | h
      · right; rw [h]; simp
      · right; omega
    · rcases ih (i + 1) st with h | h
      · left; exact h
      · right; omega

/-- Started from `(0, 0)` at position `0`, the `float64` scan of a non-empty
curve leaves an index inside the curve. -/
theorem scan64_fst_lt (first last : Point F64)
    (ps : List (Point F64)) (h : 0 < ps.length) :
    (scan64 first last ps 0 (0, F64.fin 0)).1 < ps.length := by
  rcases scan64_fst_range first last ps 0 (0, F64.fin 0) with h1 | h1
  · rw [h1]; exact h
  · omega

/-- The function `Simplify` on `float64` values. -/
def Simplify64 (points : List (Point F64)) (epsilon : F64) : List (Point F64) :=
  if h : points.length ≤ 2 then
    points
  else
    let first := points[0]
    let last := points[points.length - 1]
    let r := scan64 first last points 0 (0, F64.fin 0)
    if F64.le r.2 epsilon then
      [first, last]
    else
      let index := splitIndex r.1 points.length
      Simplify64 (points.take index) epsilon ++
        Simplify64 (points.drop index) epsilon
termination_by points.length
decreasing_by
  · have hr := scan64_fst_lt points[0] points[points.length - 1] points (by omega)
    have hk := splitIndex_range _ _ hr (by omega)
    rw [List.length_take]
    omega
  · have hr := scan64_fst_lt points[0] points[points.length - 1] points (by omega)
    have hk := splitIndex_range _ _ hr (by omega)
    rw [List.length_drop]
    omega

/-- A curve of finite `float64` coordinates whose squares overflow:
`(0, 0)`, `(2^700, 2^700)`, `(2^701, 0)`. -/
def big : List (Point F64) :=
  [⟨F64.fin 0, F64.fin 0, 0⟩, ⟨F64.fin (2 ^ 700), F64.fin (2 ^ 700), 0⟩,
    ⟨F64.fin (2 ^ 701), F64.fin 0, 0⟩]

/-- The curve `big` with exact real coordinates. -/
def bigReal : List (Point ℝ) := [⟨0, 0, 0⟩, ⟨2 ^ 700, 2 ^ 700, 0⟩, ⟨2 ^ 701, 0, 0⟩]

/-- Three points of the horizontal line `y = 0.1`, with the exact rational
value of the `float64` literal `0.1`. -/
def tenthsExact : List (Point ℚ) :=
  [⟨1, F64.tenth, 0⟩, ⟨2, F64.tenth, 0⟩, ⟨3, F64.tenth, 0⟩]

/-- The curve `tenthsExact` as `float64` input: `(1, 0.1)`, `(2, 0.1)`,
`(3, 0.1)`. -/
def tenths : List (Point F64) :=
  tenthsExact.map (fun p => ⟨F64.fin p.X, F64.fin p.Y, p.Index⟩)

/-- The value of `A*x + B*y + C` computed by `perpendicularDistance` for the
point `p` and the chord from `start` to `end_` is exactly `0`. -/
def onLine64 (p start end_ : Point F64) : Prop :=
  (end_.Y - start.Y) * p.X + (start.X - end_.X) * p.Y +
    ((end_.X * start.Y) - (start.X * end_.Y)) = F64.fin 0

/-- Three points of the horizontal axis, as `float64` input. -/
def flat64 : List (Point F64) :=
  [⟨F64.fin 0, F64.fin 0, 0⟩, ⟨F64.fin 1, F64.fin 0, 1⟩, ⟨F64.fin 2, F64.fin 0, 2⟩]

/-! ## Unfolding `Simplify` -/

section Unfold

variable [LinearOrderedField α]

theorem Simplify_short (sqrt : α → α) (points : List (Point α)) (epsilon : α)
    (h : points.length ≤ 2) : Simplify sqrt points epsilon = points := by
  rw [Simplify]
  simp [h]

theorem Simplify_long (sqrt : α → α) (points : List (Point α)) (epsilon : α)
    (h : 2 < points.length) :
    Simplify sqrt points epsilon =
      if (scan sqrt points[0] points[points.length - 1] points 0 (0, 0)).2 ≤ epsilon then
        [points[0], points[points.length - 1]]
      else
        Simplify sqrt (points.take (splitIndex
          (scan sqrt points[0] points[points.length - 1] points 0 (0, 0)).1
          points.length)) epsilon ++
        Simplify sqrt (points.drop (splitIndex
          (scan sqrt points[0] points[points.length - 1] points 0 (0, 0)).1
          points.length)) epsilon := by
  rw [Simplify]
  simp only [Nat.not_le.mpr h, dite_false]

end Unfold

/-- The first and last point of a curve, as the options `head?` and
`getLast?`. -/
theorem first_last_eq {β : Type} (points : List β) (h : 0 < points.length) :
    points.head? = some points[0] ∧
      points.getLast? = some points[points.length - 1] := by
  constructor
  · cases points with
    | nil => simp at h
    | cons a l => rfl
  · rw [List.getLast?_eq_getElem?, List.getElem?_eq_getElem]

/-- The element right after a prefix `xs` of `xs ++ p :: ys` is `p`. -/
theorem getElem?_append_cons_length {β : Type} (xs ys : List β) (p : β) :
    (xs ++ p :: ys)[xs.length]? = some p := by
  rw [List.getElem?_append_right (le_refl _), Nat.sub_self]
  simp

/-! ## The scan loop -/

section Scan

variable [LinearOrderedField α] (sqrt : α → α) (first last : Point α)

/-- No point above the running maximum: the loop state is unchanged. -/
theorem scan_no_update (ps : List (Point α)) (i : Nat) (st : Nat × α)
    (h : ∀ p ∈ ps, perpendicularDistance sqrt p first last ≤ st.2) :
    scan sqrt first last ps i st = st := by
  induction ps generalizing i with
  | nil => rfl
  | cons q qs ih =>
    have hq : ¬ perpendicularDistance sqrt q first last > st.2 :=
      not_lt.mpr (h q (List.mem_cons_self q qs))
    simp only [scan, hq, if_false]
    exact ih (i + 1) (fun p hp => h p (List.mem_cons_of_mem q hp))

/-- A point strictly above everything before it (and above the initial
maximum) and at least as far as everything after it is the one the scan
reports, with its position. -/
theorem scan_append_cons (xs ys : List (Point α)) (p : Point α) (i : Nat) (st : Nat × α)
    (hst : st.2 < perpendicularDistance sqrt p first last)
    (hxs : ∀ x ∈ xs, perpendicularDistance sqrt x first last <
      perpendicularDistance sqrt p first last)
    (hys : ∀ y ∈ ys, perpendicularDistance sqrt y first last ≤
      perpendicularDistance sqrt p first last) :
    scan sqrt first last (xs ++ p :: ys) i st =
      (i + xs.length, perpendicularDistance sqrt p first last) := by
  induction xs generalizing i st with
  | nil =>
    simp only [List.nil_append, scan, gt_iff_lt, hst, if_true, List.length_nil, Nat.add_zero]
    exact scan_no_update sqrt first last ys (i + 1) _ hys
  | cons x xs ih =>
    have hx := hxs x (List.mem_cons_self x xs)
    have hxs2 : ∀ z ∈ xs, perpendicularDistance sqrt z first last <
        perpendicularDistance sqrt p first last :=
      fun z hz => hxs z (List.mem_cons_of_mem x hz)
    rw [List.cons_append, scan, List.length_cons]
    split
    · rw [ih (i + 1) (i, perpendicularDistance sqrt x first last) hx hxs2]
      congr 1
      omega
    · rw [ih (i + 1) st hst hxs2]
      congr 1
      omega

/-- What the scan computes: either nothing exceeds the initial maximum and
the state is unchanged, or the curve splits around the first point of maximal
distance, which the scan reports. -/
theorem scan_spec (ps : List (Point α)) (i : Nat) (st : Nat × α) :
    (scan sqrt first last ps i st = st ∧
        ∀ p ∈ ps, perpendicularDistance sqrt p first last ≤ st.2) ∨
      ∃ xs p ys, ps = xs ++ p :: ys ∧
        scan sqrt first last ps i st =
          (i + xs.length, perpendicularDistance sqrt p first last) ∧
        st.2 < perpendicularDistance sqrt p first last ∧
        (∀ x ∈ xs, perpendicularDistance sqrt x first last <
          perpendicularDistance sqrt p first last) ∧
        ∀ y ∈ ys, perpendicularDistance sqrt y first last ≤
          perpendicularDistance sqrt p first last := by
  induction ps generalizing i st with
  | nil => left; exact ⟨rfl, fun p hp => by simp at hp⟩
  | cons q qs ih =>
    by_cases hq : perpendicularDistance sqrt q first last > st.2
    · right
      rcases ih (i + 1) (i, perpendicularDistance sqrt q first last) with ⟨_, h2⟩ | h
      · refine ⟨[], q, qs, rfl, ?_, hq, fun x hx => by simp at hx, h2⟩
        exact scan_append_cons sqrt first last [] qs q i st hq (fun x hx => by simp at hx) h2
      · obtain ⟨xs, p, ys, hps, _, hlt, hxs, hys⟩ := h
        have hall : ∀ x ∈ q :: xs, perpendicularDistance sqrt x first last <
            perpendicularDistance sqrt p first last := by
          intro x hx
          rcases List.mem_cons.mp hx with rfl | hx
          · exact hlt
          · exact hxs x hx
        have hst : st.2 < perpendicularDistance sqrt p first last := lt_trans hq hlt
        refine ⟨q :: xs, p, ys, by rw [hps]; rfl, ?_, hst, hall, hys⟩
        rw [hps]
        exact scan_append_cons sqrt first last (q :: xs) ys p i st hst hall hys
    · rcases ih (i + 1) st with ⟨h1, h2⟩ | h
      · left
        have hle := not_lt.mp hq
        have hall : ∀ p ∈ q :: qs, perpendicularDistance sqrt p first last ≤ st.2 := by
          intro p hp
          rcases List.mem_cons.mp hp with rfl | hp
          · exact hle
          · exact h2 p hp
        exact ⟨scan_no_update sqrt first last (q :: qs) i st hall, hall⟩
      · right
        obtain ⟨xs, p, ys, hps, _, hlt, hxs, hys⟩ := h
        have hall : ∀ x ∈ q :: xs, perpendicularDistance sqrt x first last <
            perpendicularDistance sqrt p first last := by
          intro x hx
          rcases List.mem_cons.mp hx with rfl | hx
          · exact lt_of_le_of_lt (not_lt.mp hq) hlt
          · exact hxs x hx
        refine ⟨q :: xs, p, ys, by rw [hps]; rfl, ?_, hlt, hall, hys⟩
        rw [hps]
        exact scan_append_cons sqrt first last (q :: xs) ys p i st hlt hall hys

/-- The maximum kept by the scan is at least the initial one and at least the
distance of every scanned point. -/
theorem scan_snd_ge (ps : List (Point α)) (i : Nat) (st : Nat × α) :
    st.2 ≤ (scan sqrt first last ps i st).2 ∧
      ∀ p ∈ ps, perpendicularDistance sqrt p first last ≤
        (scan sqrt first last ps i st).2 := by
  rcases scan_spec sqrt first last ps i st with ⟨h1, h2⟩ | ⟨xs, p, ys, hps, hsc, hlt, hxs, hys⟩
  · rw [h1]
    exact ⟨le_refl _, h2⟩
  · rw [hsc]
    refine ⟨le_of_lt hlt, ?_⟩
    intro x hx
    rw [hps] at hx
    rcases List.mem_append.mp hx with hx | hx
    · exact le_of_lt (hxs x hx)
    · rcases List.mem_cons.mp hx with rfl | hx
      · exact le_refl _
      · exact hys x hx

end Scan

/-! ## Structure of the recursion -/

section Recursion

variable [LinearOrderedField α] (sqrt : α → α)

/-- The split index of a curve of at least three points lies strictly
between `0` and the length. -/
theorem split_pos_lt (points : List (Point α)) (h : 2 < points.length) :
    0 < splitIndex (scan sqrt points[0] points[points.length - 1] points 0 (0, 0)).1
        points.length ∧
      splitIndex (scan sqrt points[0] points[points.length - 1] points 0 (0, 0)).1
        points.length < points.length :=
  splitIndex_range _ _
    (scan_fst_lt sqrt points[0] points[points.length - 1] points (by omega)) (by omega)

/-- Induction along the recursion of `Simplify`: short curves, collapsed
curves, and curves split at `k` into `take k` and `drop k`. -/
theorem Simplify_induct (epsilon : α) {motive : List (Point α) → Prop}
    (short : ∀ ps : List (Point α), ps.length ≤ 2 → motive ps)
    (collapse : ∀ (ps : List (Point α)) (h : 2 < ps.length),
      (scan sqrt ps[0] ps[ps.length - 1] ps 0 (0, 0)).2 ≤ epsilon →
      Simplify sqrt ps epsilon = [ps[0], ps[ps.length - 1]] → motive ps)
    (split : ∀ (ps : List (Point α)) (h : 2 < ps.length) (k : Nat),
      k = splitIndex (scan sqrt ps[0] ps[ps.length - 1] ps 0 (0, 0)).1 ps.length →
      0 < k → k < ps.length →
      ¬ (scan sqrt ps[0] ps[ps.length - 1] ps 0 (0, 0)).2 ≤ epsilon →
      Simplify sqrt ps epsilon =
        Simplify sqrt (ps.take k) epsilon ++ Simplify sqrt (ps.drop k) epsilon →
      motive (ps.take k) → motive (ps.drop k) → motive ps)
    (points : List (Point α)) : motive points := by
  generalize hn : points.length = n
  induction n using Nat.strong_induction_on generalizing points with
  | _ n ih =>
    subst hn
    by_cases h : points.length ≤ 2
    · exact short points h
    · have h2 : 2 < points.length := Nat.lt_of_not_le h
      have hk := split_pos_lt sqrt points h2
      have hS := Simplify_long sqrt points epsilon h2
      by_cases hc : (scan sqrt points[0] points[points.length - 1] points 0 (0, 0)).2 ≤ epsilon
      · rw [if_pos hc] at hS
        exact collapse points h2 hc hS
      · rw [if_neg hc] at hS
        refine split points h2 _ rfl hk.1 hk.2 hc hS ?_ ?_
        · exact ih _ (by rw [List.length_take]; omega) _ rfl
        · exact ih _ (by rw [List.length_drop]; omega) _ rfl

/-- The output starts and ends like the input. -/
theorem Simplify_head_getLast (points : List (Point α)) (epsilon : α) :
    (Simplify sqrt points epsilon).head? = points.head? ∧
      (Simplify sqrt points epsilon).getLast? = points.getLast? := by
  induction points using Simplify_induct sqrt epsilon with
  | short ps h => rw [Simplify_short sqrt ps epsilon h]; exact ⟨rfl, rfl⟩
  | collapse ps h _ hS =>
    have hfl := first_last_eq ps (by omega)
    rw [hS, hfl.1, hfl.2]
    exact ⟨rfl, rfl⟩
  | split ps h k _ hk0 hkn _ hS ihl ihr =>
    have hl : ps.take k ≠ [] :=
      List.ne_nil_of_length_pos (by rw [List.length_take]; omega)
    have hr : ps.drop k ≠ [] :=
      List.ne_nil_of_length_pos (by rw [List.length_drop]; omega)
    have hSl : Simplify sqrt (ps.take k) epsilon ≠ [] := by
      intro hnil
      rw [hnil] at ihl
      exact hl (List.head?_eq_none_iff.mp ihl.1.symm)
    have hSr : Simplify sqrt (ps.drop k) epsilon ≠ [] := by
      intro hnil
      rw [hnil] at ihr
      exact hr (List.head?_eq_none_iff.mp ihr.1.symm)
    rw [hS]
    constructor
    · rw [List.head?_append_of_ne_nil _ hSl, ihl.1]
      conv_rhs => rw [← List.take_append_drop k ps]
      rw [List.head?_append_of_ne_nil _ hl]
    · rw [List.getLast?_append_of_ne_nil _ hSr, ihr.2]
      conv_rhs => rw [← List.take_append_drop k ps]
      rw [List.getLast?_append_of_ne_nil _ hr]

/-- A non-empty curve has a non-empty output. -/
theorem Simplify_ne_nil (points : List (Point α)) (epsilon : α) (h : points ≠ []) :
    Simplify sqrt points epsilon ≠ [] := by
  intro hnil
  have := (Simplify_head_getLast sqrt points epsilon).1
  rw [hnil] at this
  exact h (List.head?_eq_none_iff.mp this.symm)

/-- The output is a sublist of the input. -/
theorem Simplify_sublist_self (points : List (Point α)) (epsilon : α) :
    (Simplify sqrt points epsilon).Sublist points := by
  induction points using Simplify_induct sqrt epsilon with
  | short ps h => rw [Simplify_short sqrt ps epsilon h]
  | collapse ps h _ hS =>
    rw [hS]
    obtain ⟨a, b, c, rest, rfl⟩ : ∃ a b c rest, ps = a :: b :: c :: rest := by
      match ps, h with
      | a :: b :: c :: rest, _ => exact ⟨a, b, c, rest, rfl⟩
    have hlast : (a :: b :: c :: rest)[(a :: b :: c :: rest).length - 1] ∈ c :: rest := by
      have : (a :: b :: c :: rest)[(a :: b :: c :: rest).length - 1] =
          (c :: rest)[(c :: rest).length - 1] := by
        simp only [List.length_cons, Nat.add_sub_cancel]
        rfl
      rw [this]
      exact List.getElem_mem _
    simp only [List.getElem_cons_zero]
    refine List.Sublist.cons₂ a (List.Sublist.cons b ?_)
    exact List.singleton_sublist.mpr hlast
  | split ps h k _ _ _ _ hS ihl ihr =>
    rw [hS]
    conv_rhs => rw [← List.take_append_drop k ps]
    exact List.Sublist.append ihl ihr

end Recursion

/-! ## Distances of the two anchors -/

/-- The first anchor is at distance zero from the chord (for a square root
with `sqrt 0 = 0`). -/
theorem perpendicularDistance_start [LinearOrderedField α] (sqrt : α → α)
    (hs : sqrt 0 = 0) (first last : Point α) :
    perpendicularDistance sqrt first first last = 0 := by
  unfold perpendicularDistance
  split
  · simp [euclidean, hs]
  · have h0 : (last.Y - first.Y) * first.X + (first.X - last.X) * first.Y +
        (last.X * first.Y - first.X * last.Y) = 0 := by ring
    simp only [h0, abs_zero, zero_div]

/-- The last anchor is at distance zero from the chord (for a square root
with `sqrt 0 = 0`). -/
theorem perpendicularDistance_end [LinearOrderedField α] (sqrt : α → α)
    (hs : sqrt 0 = 0) (first last : Point α) :
    perpendicularDistance sqrt last first last = 0 := by
  unfold perpendicularDistance
  split
  next h => simp [euclidean, hs, h.1, h.2]
  next h =>
    have h0 : (last.Y - first.Y) * last.X + (first.X - last.X) * last.Y +
        (last.X * first.Y - first.X * last.Y) = 0 := by ring
    simp only [h0, abs_zero, zero_div]

/-! ## The split of a curve that is not collapsed -/

section Split

variable [LinearOrderedField α] (sqrt : α → α)

/-- A curve that is not collapsed at a tolerance `0 ≤ epsilon` is cut right
before its first point of maximal distance, which is not the first point. -/
theorem split_spec (hs : sqrt 0 = 0) (epsilon : α) (he : 0 ≤ epsilon)
    (ps : List (Point α)) (h : 2 < ps.length)
    (hc : ¬ (scan sqrt ps[0] ps[ps.length - 1] ps 0 (0, 0)).2 ≤ epsilon) :
    ∃ xs p ys, ps = xs ++ p :: ys ∧ xs ≠ [] ∧
      splitIndex (scan sqrt ps[0] ps[ps.length - 1] ps 0 (0, 0)).1 ps.length = xs.length ∧
      (scan sqrt ps[0] ps[ps.length - 1] ps 0 (0, 0)).2 =
        perpendicularDistance sqrt p ps[0] ps[ps.length - 1] ∧
      epsilon < perpendicularDistance sqrt p ps[0] ps[ps.length - 1] ∧
      (∀ x ∈ xs, perpendicularDistance sqrt x ps[0] ps[ps.length - 1] <
        perpendicularDistance sqrt p ps[0] ps[ps.length - 1]) ∧
      ∀ y ∈ ys, perpendicularDistance sqrt y ps[0] ps[ps.length - 1] ≤
        perpendicularDistance sqrt p ps[0] ps[ps.length - 1] := by
  rcases scan_spec sqrt ps[0] ps[ps.length - 1] ps 0 (0, 0) with
    ⟨h1, _⟩ | ⟨xs, p, ys, hps, hsc, hlt, hxs, hys⟩
  · exact absurd (by rw [h1]; exact he) hc
  · have hne : xs ≠ [] := by
      rintro rfl
      have hp : ps[0] = p := by
        have h1 := (first_last_eq ps (by omega)).1
        have h2 : ps.head? = some p := by rw [hps]; rfl
        exact Option.some.inj (h1.symm.trans h2)
      rw [← hp, perpendicularDistance_start sqrt hs] at hlt
      exact lt_irrefl _ hlt
    have hlen : ps.length = xs.length + (ys.length + 1) := by
      conv_lhs => rw [hps]
      simp
    have hpos : 0 < xs.length := List.length_pos.mpr hne
    refine ⟨xs, p, ys, hps, hne, ?_, ?_, ?_, hxs, hys⟩
    · rw [hsc]
      simp only [Nat.zero_add]
      unfold splitIndex
      rw [if_neg (by omega)]
    · rw [hsc]
    · rw [hsc] at hc
      exact lt_of_not_le hc

/-- A curve cut right before a point that is further than `epsilon` from the
chord, strictly further than everything before it and at least as far as
everything after it, is simplified piecewise. -/
theorem Simplify_append_cons (epsilon : α) (he : 0 ≤ epsilon)
    (xs ys : List (Point α)) (p first last : Point α) (hne : xs ≠ [])
    (hf : (xs ++ p :: ys).head? = some first) (hl : (xs ++ p :: ys).getLast? = some last)
    (hp : epsilon < perpendicularDistance sqrt p first last)
    (hxs : ∀ x ∈ xs, perpendicularDistance sqrt x first last <
      perpendicularDistance sqrt p first last)
    (hys : ∀ y ∈ ys, perpendicularDistance sqrt y first last ≤
      perpendicularDistance sqrt p first last) :
    Simplify sqrt (xs ++ p :: ys) epsilon =
      Simplify sqrt xs epsilon ++ Simplify sqrt (p :: ys) epsilon := by
  have hpos : 0 < xs.length := List.length_pos.mpr hne
  have hlen : (xs ++ p :: ys).length = xs.length + (ys.length + 1) := by simp
  by_cases h : (xs ++ p :: ys).length ≤ 2
  · rw [Simplify_short sqrt _ epsilon h, Simplify_short sqrt xs epsilon (by omega),
      Simplify_short sqrt (p :: ys) epsilon (by simp only [List.length_cons]; omega)]
  · have h2 : 2 < (xs ++ p :: ys).length := Nat.lt_of_not_le h
    have hfl := first_last_eq (xs ++ p :: ys) (by omega)
    have h0 : (xs ++ p :: ys)[0] = first := Option.some.inj (hfl.1.symm.trans hf)
    have h1 : (xs ++ p :: ys)[(xs ++ p :: ys).length - 1] = last :=
      Option.some.inj (hfl.2.symm.trans hl)
    have hsc := scan_append_cons sqrt first last xs ys p 0 (0, 0)
      (lt_of_le_of_lt he hp) hxs hys
    rw [Simplify_long sqrt _ epsilon h2, h0, h1, hsc, if_neg (not_le.mpr hp)]
    have hk : splitIndex (0 + xs.length, perpendicularDistance sqrt p first last).1
        (xs ++ p :: ys).length = xs.length := by
      simp only [Nat.zero_add]
      unfold splitIndex
      rw [if_neg (by omega)]
    rw [hk, List.take_left, List.drop_left]

end Split

/-- Raising the tolerance only removes points. -/
theorem Simplify_sublist_of_le [LinearOrderedField α] (sqrt : α → α)
    (points : List (Point α)) (e1 e2 : α) (he : e1 ≤ e2) :
    (Simplify sqrt points e2).Sublist (Simplify sqrt points e1) := by
  induction points using Simplify_induct sqrt e1 with
  | short ps h => rw [Simplify_short sqrt ps e1 h, Simplify_short sqrt ps e2 h]
  | collapse ps h hc hS =>
    rw [hS, Simplify_long sqrt ps e2 h, if_pos (le_trans hc he)]
  | split ps h k hk hk0 hkn _ hS ihl ihr =>
    rw [hS]
    by_cases hc2 : (scan sqrt ps[0] ps[ps.length - 1] ps 0 (0, 0)).2 ≤ e2
    · rw [Simplify_long sqrt ps e2 h, if_pos hc2]
      have hfl := first_last_eq ps (by omega)
      have hl : ps.take k ≠ [] :=
        List.ne_nil_of_length_pos (by rw [List.length_take]; omega)
      have hr : ps.drop k ≠ [] :=
        List.ne_nil_of_length_pos (by rw [List.length_drop]; omega)
      have h1 : ps[0] ∈ Simplify sqrt (ps.take k) e1 := by
        apply List.mem_of_mem_head?
        rw [(Simplify_head_getLast sqrt (ps.take k) e1).1]
        have : ps.head? = (ps.take k).head? := by
          conv_lhs => rw [← List.take_append_drop k ps]
          rw [List.head?_append_of_ne_nil _ hl]
        rw [← this, hfl.1]
        rfl
      have h2 : ps[ps.length - 1] ∈ Simplify sqrt (ps.drop k) e1 := by
        apply List.mem_of_mem_getLast?
        rw [(Simplify_head_getLast sqrt (ps.drop k) e1).2]
        have : ps.getLast? = (ps.drop k).getLast? := by
          conv_lhs => rw [← List.take_append_drop k ps]
          rw [List.getLast?_append_of_ne_nil _ hr]
        rw [← this, hfl.2]
        rfl
      have hA : [ps[0]].Sublist (Simplify sqrt (ps.take k) e1) :=
        List.singleton_sublist.mpr h1
      have hB : [ps[ps.length - 1]].Sublist (Simplify sqrt (ps.drop k) e1) :=
        List.singleton_sublist.mpr h2
      exact List.Sublist.append hA hB
    · rw [Simplify_long sqrt ps e2 h, if_neg hc2, ← hk]
      exact List.Sublist.append ihl ihr

/-- Simplifying an output again at the same non-negative tolerance changes
nothing (for a square root with `sqrt 0 = 0`). -/
theorem Simplify_Simplify [LinearOrderedField α] (sqrt : α → α) (hs : sqrt 0 = 0)
    (epsilon : α) (he : 0 ≤ epsilon) (points : List (Point α)) :
    Simplify sqrt (Simplify sqrt points epsilon) epsilon = Simplify sqrt points epsilon := by
  induction points using Simplify_induct sqrt epsilon with
  | short ps h => rw [Simplify_short sqrt ps epsilon h, Simplify_short sqrt ps epsilon h]
  | collapse ps h _ hS =>
    rw [hS]
    exact Simplify_short sqrt _ epsilon (by simp)
  | split ps h k hk _ _ hc hS ihl ihr =>
    obtain ⟨xs, p, ys, hps, hne, hk2, _, hp, hxs, hys⟩ :=
      split_spec sqrt hs epsilon he ps h hc
    have hkx : k = xs.length := hk.trans hk2
    have htake : ps.take k = xs := by
      rw [hkx]
      conv_lhs => rw [hps]
      exact List.take_left _ _
    have hdrop : ps.drop k = p :: ys := by
      rw [hkx]
      conv_lhs => rw [hps]
      exact List.drop_left _ _
    rw [htake] at ihl hS
    rw [hdrop] at ihr hS
    have hfl := first_last_eq ps (by omega)
    have hHL := Simplify_head_getLast sqrt ps epsilon
    rw [hS, hfl.1, hfl.2] at hHL
    obtain ⟨ys2, hys2⟩ : ∃ ys2, Simplify sqrt (p :: ys) epsilon = p :: ys2 :=
      List.head?_eq_some_iff.mp (Simplify_head_getLast sqrt (p :: ys) epsilon).1
    have hsub : ys2.Sublist ys := by
      have := Simplify_sublist_self sqrt (p :: ys) epsilon
      rw [hys2] at this
      exact List.cons_sublist_cons.mp this
    have hsubx := Simplify_sublist_self sqrt xs epsilon
    rw [hS]
    rw [hys2] at hHL ihr ⊢
    rw [Simplify_append_cons sqrt epsilon he (Simplify sqrt xs epsilon) ys2 p
      ps[0] ps[ps.length - 1] (Simplify_ne_nil sqrt xs epsilon hne) hHL.1 hHL.2 hp
      (fun x hx => hxs x (hsubx.subset hx)) (fun y hy => hys y (hsub.subset hy)),
      ihl, ihr]

/-- The positions kept by `Simplify`: a chain of positions of the input,
starting at `0` and ending at the last position, whose points are the output,
and such that every position strictly between two neighbours of the chain
holds a point within `epsilon` of the chord between them. -/
theorem Simplify_positions [LinearOrderedField α] (sqrt : α → α) (epsilon : α)
    (points : List (Point α)) :
    ∃ is : List Nat,
      (Simplify sqrt points epsilon).map some = is.map (fun i => points[i]?) ∧
      is.Chain' (fun a b => a < b ∧ b < points.length ∧
        ∀ j, a < j → j < b → ∀ pa pj pb, points[a]? = some pa → points[j]? = some pj →
          points[b]? = some pb → perpendicularDistance sqrt pj pa pb ≤ epsilon) ∧
      (points ≠ [] → is.head? = some 0 ∧ is.getLast? = some (points.length - 1)) := by
  induction points using Simplify_induct sqrt epsilon with
  | short ps h =>
    rw [Simplify_short sqrt ps epsilon h]
    match ps, h with
    | [], _ => exact ⟨[], rfl, List.chain'_nil, fun h => absurd rfl h⟩
    | [a], _ => exact ⟨[0], rfl, List.chain'_singleton 0, fun _ => ⟨rfl, rfl⟩⟩
    | [a, b], _ =>
      refine ⟨[0, 1], rfl, ?_, fun _ => ⟨rfl, rfl⟩⟩
      simp only [List.chain'_cons, List.chain'_singleton, and_true, List.length_cons,
        List.length_nil]
      exact ⟨by omega, by omega, fun j h1 h2 => by omega⟩
  | collapse ps h hc hS =>
    rw [hS]
    refine ⟨[0, ps.length - 1], ?_, ?_, fun _ => ⟨rfl, rfl⟩⟩
    · simp only [List.map_cons, List.map_nil]
      rw [List.getElem?_eq_getElem, List.getElem?_eq_getElem]
    · simp only [List.chain'_cons, List.chain'_singleton, and_true]
      refine ⟨by omega, by omega, ?_⟩
      intro j _ _ pa pj pb ha hj hb
      rw [List.getElem?_eq_getElem (by omega)] at ha hb
      cases Option.some.inj ha
      cases Option.some.inj hb
      have hmem : pj ∈ ps := List.getElem?_mem hj
      exact le_trans ((scan_snd_ge sqrt ps[0] ps[ps.length - 1] ps 0 (0, 0)).2 pj hmem) hc
  | split ps h k _ hk0 hkn _ hS ihl ihr =>
    obtain ⟨isL, hmL, hcL, hhL⟩ := ihl
    obtain ⟨isR, hmR, hcR, hhR⟩ := ihr
    have hlenL : (ps.take k).length = k := by rw [List.length_take]; omega
    have hlenR : (ps.drop k).length = ps.length - k := List.length_drop k ps
    have hl : ps.take k ≠ [] := List.ne_nil_of_length_pos (by omega)
    have hr : ps.drop k ≠ [] := List.ne_nil_of_length_pos (by omega)
    have hhL := hhL hl
    have hhR := hhR hr
    rw [hlenL] at hhL hcL
    rw [hlenR] at hhR hcR
    have hneL : isL ≠ [] := by
      rintro rfl
      simp at hhL
    have hneR : isR ≠ [] := by
      rintro rfl
      simp at hhR
    -- every kept position of the left part is below `k`
    have hbL : ∀ i ∈ isL, i < k := by
      intro i hi
      have : (isL.map (fun i => (ps.take k)[i]?)) = (Simplify sqrt (ps.take k) epsilon).map some :=
        hmL.symm
      have hmem : (ps.take k)[i]? ∈ (Simplify sqrt (ps.take k) epsilon).map some := by
        rw [← this]
        exact List.mem_map_of_mem _ hi
      obtain ⟨q, _, hq⟩ := List.mem_map.mp hmem
      have := (List.getElem?_eq_some_iff.mp hq.symm).1
      omega
    refine ⟨isL ++ isR.map (fun i => i + k), ?_, ?_, fun _ => ⟨?_, ?_⟩⟩
    · rw [hS, List.map_append, hmL, hmR, List.map_append, List.map_map]
      congr 1
      · apply List.map_congr_left
        intro i hi
        rw [List.getElem?_take_of_lt (hbL i hi)]
      · apply List.map_congr_left
        intro i _
        simp only [Function.comp]
        rw [List.getElem?_drop, Nat.add_comm]
    · refine List.Chain'.append ?_ ?_ ?_
      · refine hcL.imp ?_
        rintro a b ⟨hab, hb, hj⟩
        refine ⟨hab, by omega, ?_⟩
        intro j h1 h2 pa pj pb ha hj' hb'
        refine hj j h1 h2 pa pj pb ?_ ?_ ?_
        · rw [List.getElem?_take_of_lt (by omega)]; exact ha
        · rw [List.getElem?_take_of_lt (by omega)]; exact hj'
        · rw [List.getElem?_take_of_lt (by omega)]; exact hb'
      · rw [List.chain'_map]
        refine hcR.imp ?_
        rintro a b ⟨hab, hb, hj⟩
        refine ⟨by omega, by omega, ?_⟩
        intro j h1 h2 pa pj pb ha hj' hb'
        refine hj (j - k) (by omega) (by omega) pa pj pb ?_ ?_ ?_
        · rw [List.getElem?_drop, Nat.add_comm]; exact ha
        · rw [List.getElem?_drop, show k + (j - k) = j by omega]; exact hj'
        · rw [List.getElem?_drop, Nat.add_comm]; exact hb'
      · intro x hx y hy
        rw [hhL.2] at hx
        rw [List.head?_map, hhR.1] at hy
        cases hx
        cases hy
        dsimp only
        exact ⟨by omega, by omega, fun j h1 h2 => by omega⟩
    · rw [List.head?_append_of_ne_nil _ hneL]
      exact hhL.1
    · rw [List.getLast?_append_of_ne_nil _ (by simpa using hneR), List.getLast?_map, hhR.2]
      simp only [Option.map_some']
      congr 1
      omega

/-- A negative tolerance never collapses a span: every point is kept. -/
theorem Simplify_of_neg [LinearOrderedField α] (sqrt : α → α) (epsilon : α)
    (he : epsilon < 0) (points : List (Point α)) :
    Simplify sqrt points epsilon = points := by
  induction points using Simplify_induct sqrt epsilon with
  | short ps h => exact Simplify_short sqrt ps epsilon h
  | collapse ps h hc _ =>
    have h0 := (scan_snd_ge sqrt ps[0] ps[ps.length - 1] ps 0 (0, 0)).1
    exact absurd (lt_of_le_of_lt (le_trans h0 hc) he) (lt_irrefl _)
  | split ps h k _ _ _ _ hS ihl ihr =>
    rw [hS, ihl, ihr, List.take_append_drop]

/-- A curve of at least three points all of whose distances to the chord are
at most `epsilon`, with `0 ≤ epsilon`, collapses to its two anchors. -/
theorem Simplify_collapse_of_le [LinearOrderedField α] (sqrt : α → α) (epsilon : α)
    (he : 0 ≤ epsilon) (points : List (Point α)) (h : 2 < points.length)
    (hall : ∀ p ∈ points,
      perpendicularDistance sqrt p points[0] points[points.length - 1] ≤ epsilon) :
    Simplify sqrt points epsilon = [points[0], points[points.length - 1]] := by
  have hc : (scan sqrt points[0] points[points.length - 1] points 0 (0, 0)).2 ≤ epsilon := by
    rcases scan_spec sqrt points[0] points[points.length - 1] points 0 (0, 0) with
      ⟨h1, _⟩ | ⟨xs, p, ys, hps, hsc, _, _, _⟩
    · rw [h1]; exact he
    · rw [hsc]
      apply hall
      rw [hps]
      simp
  rw [Simplify_long sqrt points epsilon h, if_pos hc]

/-- A point on the line of a chord whose ends differ is at distance zero. -/
theorem perpendicularDistance_onLine [LinearOrderedField α] (sqrt : α → α)
    (p start end_ : Point α) (hne : ¬ (start.X = end_.X ∧ start.Y = end_.Y))
    (h : onLine p start end_) : perpendicularDistance sqrt p start end_ = 0 := by
  unfold perpendicularDistance
  unfold onLine at h
  rw [if_neg hne]
  simp only [h, abs_zero, zero_div]

/-! ## Evaluation on the concrete curves -/

/-- The scan of `tri` finds the middle point, at distance `1`. -/
theorem scan_tri : scan Real.sqrt tri[0] tri[tri.length - 1] tri 0 (0, 0) = (1, 1) := by
  simp [tri, scan, perpendicularDistance]

/-- The scan of `loop` finds the middle point, at distance `1` from the
start. -/
theorem scan_loop : scan Real.sqrt loop[0] loop[loop.length - 1] loop 0 (0, 0) = (1, 1) := by
  simp [loop, scan, perpendicularDistance, euclidean]

/-- At tolerance `0` the closed curve `loop` is kept whole. -/
theorem Simplify_loop : Simplify Real.sqrt loop 0 = loop := by
  rw [Simplify_long Real.sqrt loop 0 (by decide), scan_loop]
  simp [splitIndex, loop, Simplify_short]

/-- At tolerance `0` the three collinear points of `flat` collapse. -/
theorem Simplify_flat : Simplify Real.sqrt flat 0 = [⟨0, 0, 0⟩, ⟨2, 0, 2⟩] := by
  rw [Simplify_collapse_of_le Real.sqrt 0 (le_refl 0) flat (by decide)]
  · rfl
  · intro p hp
    simp only [flat, List.mem_cons, List.mem_singleton, List.not_mem_nil, or_false] at hp
    rcases hp with rfl | rfl | rfl <;> simp [flat, perpendicularDistance]

/-! ## Rounding to `float64` -/

namespace F64

/-- The exponent of a positive rational lying between two consecutive powers
of two. -/
theorem log2_eq (r : ℚ) (e : ℤ) (h1 : (2 : ℚ) ^ e ≤ r) (h2 : r < (2 : ℚ) ^ (e + 1)) :
    Int.log 2 r = e := by
  have hr : 0 < r := lt_of_lt_of_le (zpow_pos (by norm_num) e) h1
  have a1 : e ≤ Int.log 2 r :=
    (Int.zpow_le_iff_le_log (by norm_num) hr).mp (by simpa using h1)
  have a2 : Int.log 2 r < e + 1 :=
    (Int.lt_zpow_iff_log_lt (by norm_num) hr).mp (by simpa using h2)
  omega

/-- An integer is rounded to itself. -/
theorem roundHalfEven_intCast (z : ℤ) : roundHalfEven (z : ℚ) = z := by
  unfold roundHalfEven
  simp

/-- The rounding of a rational `t` with `f ≤ t < f + 1`. -/
theorem roundHalfEven_eq (t : ℚ) (f : ℤ) (h1 : (f : ℚ) ≤ t) (h2 : t < f + 1) :
    roundHalfEven t =
      if t - f < 1 / 2 then f
      else if 1 / 2 < t - f then f + 1
      else if f % 2 = 0 then f
      else f + 1 := by
  have hf : ⌊t⌋ = f := Int.floor_eq_iff.mpr ⟨h1, h2⟩
  unfold roundHalfEven
  rw [hf]

theorem round_zero : round 0 = fin 0 := by
  unfold round
  simp

/-- A number `m * 2^k` with `|m| < 2^53` and `k` not below the exponent of the
subnormal numbers is rounded to itself, or to an infinity when it is too
large. -/
theorem round_dyadic (m k : ℤ) (hm : |m| < 2 ^ 53) (hk : -1074 ≤ k) :
    round ((m : ℚ) * 2 ^ k) =
      if (2 : ℚ) ^ (1024 : ℤ) ≤ |(m : ℚ) * 2 ^ k| then inf (decide ((m : ℚ) * 2 ^ k < 0))
      else fin ((m : ℚ) * 2 ^ k) := by
  have h2k : (0 : ℚ) < 2 ^ k := zpow_pos (by norm_num) k
  by_cases hm0 : m = 0
  · subst hm0
    have : ¬ ((2 : ℚ) ^ (1024 : ℤ) ≤ 0) := not_le.mpr (zpow_pos (by norm_num) _)
    simp [round_zero, this]
  · have hq : (m : ℚ) * 2 ^ k ≠ 0 :=
      mul_ne_zero (Int.cast_ne_zero.mpr hm0) (ne_of_gt h2k)
    have habs : 0 < |(m : ℚ) * 2 ^ k| := abs_pos.mpr hq
    have hlt : |(m : ℚ) * 2 ^ k| < (2 : ℚ) ^ (53 + k) := by
      rw [abs_mul, abs_of_pos h2k, zpow_add₀ (by norm_num : (2 : ℚ) ≠ 0)]
      apply mul_lt_mul_of_pos_right _ h2k
      exact_mod_cast hm
    have hlog : Int.log 2 |(m : ℚ) * 2 ^ k| < 53 + k :=
      (Int.lt_zpow_iff_log_lt (by norm_num) habs).mp (by simpa using hlt)
    have he : max (Int.log 2 |(m : ℚ) * 2 ^ k|) (-1022) - 52 ≤ k := by
      rcases max_cases (Int.log 2 |(m : ℚ) * 2 ^ k|) (-1022) with ⟨h, _⟩ | ⟨h, _⟩ <;>
        rw [h] <;> omega
    obtain ⟨d, hd⟩ : ∃ d : ℕ, k = (max (Int.log 2 |(m : ℚ) * 2 ^ k|) (-1022) - 52) + d :=
      ⟨(k - (max (Int.log 2 |(m : ℚ) * 2 ^ k|) (-1022) - 52)).toNat, by omega⟩
    have hulp : (0 : ℚ) < 2 ^ (max (Int.log 2 |(m : ℚ) * 2 ^ k|) (-1022) - 52) :=
      zpow_pos (by norm_num) _
    have hdiv : (m : ℚ) * 2 ^ k / 2 ^ (max (Int.log 2 |(m : ℚ) * 2 ^ k|) (-1022) - 52) =
        ((m * 2 ^ d : ℤ) : ℚ) := by
      rw [div_eq_iff (ne_of_gt hulp)]
      conv_lhs => rw [hd]
      rw [zpow_add₀ (by norm_num : (2 : ℚ) ≠ 0), zpow_natCast]
      push_cast
      ring
    unfold round
    rw [if_neg hq]
    simp only
    rw [hdiv, roundHalfEven_intCast, ← hdiv, div_mul_cancel₀ _ (ne_of_gt hulp)]

/-- An exact result equal to a representable number is rounded to it. -/
theorem round_eq_fin (q r : ℚ) (m k : ℤ) (hqr : q = r) (hr : r = (m : ℚ) * 2 ^ k)
    (hm : |m| < 2 ^ 53) (hk : -1074 ≤ k) (hlt : |r| < (2 : ℚ) ^ (1024 : ℤ)) :
    round q = fin r := by
  rw [hqr]
  have h := round_dyadic m k hm hk
  rw [← hr, if_neg (not_le.mpr hlt)] at h
  exact h

theorem fin_add_fin (a b : ℚ) : (fin a + fin b : F64) = round (a + b) := rfl

theorem fin_sub_fin (a b : ℚ) : (fin a - fin b : F64) = round (a - b) := by
  show add (fin a) (neg (fin b)) = round (a - b)
  rw [sub_eq_add_neg]
  rfl

theorem fin_mul_fin (a b : ℚ) : (fin a * fin b : F64) = round (a * b) := rfl

theorem fin_div_fin (a b : ℚ) (hb : b ≠ 0) : (fin a / fin b : F64) = round (a / b) := by
  show div (fin a) (fin b) = round (a / b)
  simp only [div, if_neg hb]

theorem fin_add_inf (a : ℚ) (n : Bool) : (fin a + inf n : F64) = inf n := rfl

theorem inf_add_fin (a : ℚ) (n : Bool) : (inf n + fin a : F64) = inf n := rfl

theorem fin_div_inf (a : ℚ) (n : Bool) : (fin a / inf n : F64) = fin 0 := rfl

theorem inf_div_inf (a b : Bool) : (inf a / inf b : F64) = nan := rfl

theorem abs_inf (n : Bool) : abs (inf n) = inf false := rfl

theorem abs_fin (q : ℚ) : abs (fin q) = fin |q| := rfl

theorem sqrt_inf : sqrt (inf false) = inf false := rfl

theorem fin_sub_self (a : ℚ) : (fin a - fin a : F64) = fin 0 := by
  rw [fin_sub_fin, sub_self, round_zero]

theorem zero_mul_fin (a : ℚ) : (fin 0 * fin a : F64) = fin 0 := by
  rw [fin_mul_fin, zero_mul, round_zero]

theorem fin_mul_zero (a : ℚ) : (fin a * fin 0 : F64) = fin 0 := by
  rw [fin_mul_fin, mul_zero, round_zero]

theorem zero_add_zero : (fin 0 + fin 0 : F64) = fin 0 := by
  rw [fin_add_fin, add_zero, round_zero]

/-! ### The operations met on the curve `big` -/

theorem round_neg_pow_701 : round (-(2 : ℚ) ^ 701) = fin (-(2 : ℚ) ^ 701) := by
  have h := round_dyadic (-1) 701 (by norm_num) (by norm_num)
  norm_num at h
  norm_num
  exact h

theorem round_neg_pow_1401 : round (-(2 : ℚ) ^ 1401) = inf true := by
  have h := round_dyadic (-1) 1401 (by norm_num) (by norm_num)
  norm_num at h
  norm_num
  exact h

theorem round_pow_1402 : round ((2 : ℚ) ^ 1402) = inf false := by
  have h := round_dyadic 1 1402 (by norm_num) (by norm_num)
  norm_num at h
  norm_num
  exact h

theorem eq_zero_pow_701 : eq (fin 0) (fin (2 ^ 701)) = false := by
  unfold eq
  exact decide_eq_false (ne_of_gt (pow_pos (by norm_num) 701)).symm

theorem zero_sub_pow_701 : (fin 0 - fin (2 ^ 701) : F64) = fin (-(2 : ℚ) ^ 701) := by
  simp only [fin_sub_fin, zero_sub, round_neg_pow_701]

theorem neg_pow_701_mul_pow_700 :
    (fin (-(2 : ℚ) ^ 701) * fin (2 ^ 700) : F64) = inf true := by
  have e1 : (2 : ℚ) ^ 701 * 2 ^ 700 = 2 ^ 1401 := by rw [← pow_add]
  simp only [fin_mul_fin, neg_mul, e1, round_neg_pow_1401]

theorem neg_pow_701_mul_self :
    (fin (-(2 : ℚ) ^ 701) * fin (-(2 : ℚ) ^ 701) : F64) = inf false := by
  have e2 : (2 : ℚ) ^ 701 * 2 ^ 701 = 2 ^ 1402 := by rw [← pow_add]
  simp only [fin_mul_fin, neg_mul_neg, e2, round_pow_1402]

/-! ### The operations met on the curve `tenths` -/

theorem round_tenth : round (1 * tenth) = fin tenth := by
  have h := round_dyadic 3602879701896397 (-55) (by norm_num) (by norm_num)
  norm_num [abs_of_pos] at h
  unfold tenth
  norm_num
  exact h

/-- The product `3 * 0.1` is a tie between two `float64` values and is rounded
to the even one, `0.30000000000000004`. -/
theorem round_three_tenth : round (3 * tenth) = fin (5404319552844596 / 2 ^ 54) := by
  have hlog : Int.log 2 |3 * tenth| = -2 := by
    apply log2_eq <;> (unfold tenth; norm_num [abs_of_pos])
  have hrhe : roundHalfEven (3 * tenth / 2 ^ ((-2 : ℤ) - 52)) = 5404319552844596 := by
    rw [roundHalfEven_eq _ 5404319552844595 (by unfold tenth; norm_num)
      (by unfold tenth; norm_num)]
    unfold tenth
    norm_num
  unfold round
  rw [if_neg (by unfold tenth; norm_num)]
  simp only [hlog]
  rw [show max (-2 : ℤ) (-1022) = -2 by decide, hrhe]
  norm_num [abs_of_pos]

theorem eq_one_three : eq (fin 1) (fin 3) = false := by
  unfold eq
  exact decide_eq_false (by norm_num)

theorem one_sub_three : (fin 1 - fin 3 : F64) = fin (-2) := by
  rw [fin_sub_fin]
  exact round_eq_fin _ _ (-2) 0 (by norm_num) (by norm_num) (by norm_num) (by norm_num)
    (by norm_num)

theorem three_mul_tenth : (fin 3 * fin tenth : F64) = fin (5404319552844596 / 2 ^ 54) := by
  rw [fin_mul_fin, round_three_tenth]

theorem one_mul_tenth : (fin 1 * fin tenth : F64) = fin tenth := by
  rw [fin_mul_fin, round_tenth]

theorem three_tenth_sub_tenth : (fin (5404319552844596 / 2 ^ 54) - fin tenth : F64) =
    fin (7205759403792795 / 2 ^ 55) := by
  rw [fin_sub_fin]
  exact round_eq_fin _ _ 7205759403792795 (-55) (by unfold tenth; norm_num) (by norm_num)
    (by norm_num) (by norm_num) (by norm_num [abs_of_pos])

theorem neg_two_mul_tenth :
    (fin (-2) * fin tenth : F64) = fin (-(3602879701896397 / 2 ^ 54)) := by
  rw [fin_mul_fin]
  exact round_eq_fin _ _ (-3602879701896397) (-54) (by unfold tenth; norm_num)
    (by norm_num) (by norm_num) (by norm_num) (by norm_num [abs_of_pos])

theorem zero_add_neg_two_tenth : (fin 0 + fin (-(3602879701896397 / 2 ^ 54)) : F64) =
    fin (-(3602879701896397 / 2 ^ 54)) := by
  rw [fin_add_fin]
  exact round_eq_fin _ _ (-3602879701896397) (-54) (by norm_num)
    (by norm_num) (by norm_num) (by norm_num) (by norm_num [abs_of_pos])

theorem numerator_tenth :
    (fin (-(3602879701896397 / 2 ^ 54)) + fin (7205759403792795 / 2 ^ 55) : F64) =
      fin (1 / 2 ^ 55) := by
  rw [fin_add_fin]
  exact round_eq_fin _ _ 1 (-55) (by norm_num) (by norm_num) (by norm_num) (by norm_num)
    (by norm_num [abs_of_pos])

theorem neg_two_mul_self : (fin (-2) * fin (-2) : F64) = fin 4 := by
  rw [fin_mul_fin]
  exact round_eq_fin _ _ 4 0 (by norm_num) (by norm_num) (by norm_num) (by norm_num)
    (by norm_num)

theorem zero_add_four : (fin 0 + fin 4 : F64) = fin 4 := by
  rw [fin_add_fin]
  exact round_eq_fin _ _ 4 0 (by norm_num) (by norm_num) (by norm_num) (by norm_num)
    (by norm_num)

theorem sqrt_four : sqrt (fin 4) = fin 2 := by
  have hlog : Int.log 2 (4 : ℚ) = 2 := log2_eq 4 2 (by norm_num) (by norm_num)
  have hfloor : ⌊(4 : ℚ) * 4 ^ ((55 : ℤ) - 2 / 2)⌋₊ = (2 ^ 55) ^ 2 := by
    have : (4 : ℚ) * 4 ^ ((55 : ℤ) - 2 / 2) = (((2 ^ 55) ^ 2 : ℕ) : ℚ) := by norm_num
    rw [this, Nat.floor_natCast]
  simp only [sqrt]
  rw [if_neg (by norm_num), if_neg (by norm_num)]
  simp only [hlog, hfloor, Nat.sqrt_eq']
  rw [if_pos (by norm_num)]
  exact round_eq_fin _ _ 2 0 (by norm_num) (by norm_num) (by norm_num) (by norm_num)
    (by norm_num)

theorem quotient_tenth : (fin (1 / 2 ^ 55) / fin 2 : F64) = fin (1 / 2 ^ 56) := by
  rw [fin_div_fin _ _ (by norm_num)]
  exact round_eq_fin _ _ 1 (-56) (by norm_num) (by norm_num) (by norm_num) (by norm_num)
    (by norm_num [abs_of_pos])

end F64

/-! ## The `float64` code on the curves `big` and `tenths` -/

theorem Simplify64_short (points : List (Point F64)) (epsilon : F64)
    (h : points.length ≤ 2) : Simplify64 points epsilon = points := by
  rw [Simplify64]
  simp [h]

theorem Simplify64_long (points : List (Point F64)) (epsilon : F64)
    (h : 2 < points.length) :
    Simplify64 points epsilon =
      if F64.le (scan64 points[0] points[points.length - 1] points 0 (0, F64.fin 0)).2
          epsilon then
        [points[0], points[points.length - 1]]
      else
        Simplify64 (points.take (splitIndex
          (scan64 points[0] points[points.length - 1] points 0 (0, F64.fin 0)).1
          points.length)) epsilon ++
        Simplify64 (points.drop (splitIndex
          (scan64 points[0] points[points.length - 1] points 0 (0, F64.fin 0)).1
          points.length)) epsilon := by
  rw [Simplify64]
  simp only [Nat.not_le.mpr h, dite_false]

/-- On `big` the distance of the middle point is a NaN: the numerator
overflows to an infinity and so does the sum of squares under the root. -/
theorem perpendicularDistance64_big_1 :
    perpendicularDistance64 big[1] big[0] big[big.length - 1] = F64.nan := by
  show perpendicularDistance64 ⟨F64.fin (2 ^ 700), F64.fin (2 ^ 700), 0⟩
    ⟨F64.fin 0, F64.fin 0, 0⟩ ⟨F64.fin (2 ^ 701), F64.fin 0, 0⟩ = F64.nan
  simp only [perpendicularDistance64, F64.eq_zero_pow_701, Bool.false_eq_true, false_and,
    if_false]
  rw [F64.fin_sub_self, F64.zero_sub_pow_701, F64.fin_mul_zero, F64.zero_mul_fin,
    F64.zero_mul_fin, F64.neg_pow_701_mul_pow_700, F64.neg_pow_701_mul_self,
    F64.fin_sub_self, F64.fin_add_inf, F64.inf_add_fin, F64.fin_add_inf, F64.abs_inf,
    F64.sqrt_inf, F64.inf_div_inf]

/-- On `big` the distance of the first point is `0`. -/
theorem perpendicularDistance64_big_0 :
    perpendicularDistance64 big[0] big[0] big[big.length - 1] = F64.fin 0 := by
  show perpendicularDistance64 ⟨F64.fin 0, F64.fin 0, 0⟩
    ⟨F64.fin 0, F64.fin 0, 0⟩ ⟨F64.fin (2 ^ 701), F64.fin 0, 0⟩ = F64.fin 0
  simp only [perpendicularDistance64, F64.eq_zero_pow_701, Bool.false_eq_true, false_and,
    if_false]
  simp only [F64.fin_sub_self, F64.zero_sub_pow_701, F64.fin_mul_zero, F64.zero_mul_fin,
    F64.neg_pow_701_mul_self, F64.zero_add_zero, F64.fin_add_inf, F64.abs_fin, abs_zero,
    F64.sqrt_inf, F64.fin_div_inf]

/-- On `big` the distance of the last point is `0`. -/
theorem perpendicularDistance64_big_2 :
    perpendicularDistance64 big[2] big[0] big[big.length - 1] = F64.fin 0 := by
  show perpendicularDistance64 ⟨F64.fin (2 ^ 701), F64.fin 0, 0⟩
    ⟨F64.fin 0, F64.fin 0, 0⟩ ⟨F64.fin (2 ^ 701), F64.fin 0, 0⟩ = F64.fin 0
  simp only [perpendicularDistance64, F64.eq_zero_pow_701, Bool.false_eq_true, false_and,
    if_false]
  simp only [F64.fin_sub_self, F64.zero_sub_pow_701, F64.fin_mul_zero, F64.zero_mul_fin,
    F64.neg_pow_701_mul_self, F64.zero_add_zero, F64.fin_add_inf, F64.abs_fin, abs_zero,
    F64.sqrt_inf, F64.fin_div_inf]

/-- The `float64` scan of three points none of which compares greater than
`0` ends as it started. -/
theorem scan64_three_none (first last a b c : Point F64)
    (ha : F64.gt (perpendicularDistance64 a first last) (F64.fin 0) = false)
    (hb : F64.gt (perpendicularDistance64 b first last) (F64.fin 0) = false)
    (hc : F64.gt (perpendicularDistance64 c first last) (F64.fin 0) = false) :
    scan64 first last [a, b, c] 0 (0, F64.fin 0) = (0, F64.fin 0) := by
  simp only [scan64, ha, hb, hc, Bool.false_eq_true, if_false]

/-- The `float64` scan of three points at one distance `d > 0` reports the
first of them. -/
theorem scan64_three_first (first last a b c : Point F64) (d : F64)
    (ha : perpendicularDistance64 a first last = d)
    (hb : perpendicularDistance64 b first last = d)
    (hc : perpendicularDistance64 c first last = d)
    (hpos : F64.gt d (F64.fin 0) = true) (hirr : F64.gt d d = false) :
    scan64 first last [a, b, c] 0 (0, F64.fin 0) = (0, d) := by
  simp only [scan64, ha, hb, hc, hpos, hirr, Bool.false_eq_true, if_false, if_true]

/-- The `float64` scan of `big` skips the NaN and ends with `maxDist = 0`,
`index = 0`. -/
theorem scan64_big :
    scan64 big[0] big[big.length - 1] big 0 (0, F64.fin 0) = (0, F64.fin 0) := by
  have hgt0 : F64.gt (F64.fin 0) (F64.fin 0) = false := by
    simp [F64.gt, F64.lt]
  have hgtn : F64.gt F64.nan (F64.fin 0) = false := rfl
  exact scan64_three_none big[0] big[big.length - 1] big[0] big[1] big[2]
    (by rw [perpendicularDistance64_big_0]; exact hgt0)
    (by rw [perpendicularDistance64_big_1]; exact hgtn)
    (by rw [perpendicularDistance64_big_2]; exact hgt0)

/-- At tolerance `0` the `float64` code collapses `big` to its two anchors. -/
theorem Simplify64_big : Simplify64 big (F64.fin 0) = [big[0], big[2]] := by
  have hle : F64.le (F64.fin 0) (F64.fin 0) = true := by simp [F64.le]
  rw [Simplify64_long big (F64.fin 0) (by decide), scan64_big]
  simp only [hle, if_true]
  rfl

/-- With exact real arithmetic the scan of the same curve finds the middle
point, at distance `2^700`. -/
theorem scan_bigReal :
    scan Real.sqrt bigReal[0] bigReal[bigReal.length - 1] bigReal 0 (0, 0) =
      (1, 2 ^ 700) := by
  have hs : Real.sqrt ((2 : ℝ) ^ 701 * 2 ^ 701) = 2 ^ 701 :=
    Real.sqrt_mul_self (by positivity)
  have hd : perpendicularDistance Real.sqrt (⟨2 ^ 700, 2 ^ 700, 0⟩ : Point ℝ)
      ⟨0, 0, 0⟩ ⟨2 ^ 701, 0, 0⟩ = 2 ^ 700 := by
    have hne : ¬ ((0 : ℝ) = 2 ^ 701 ∧ (0 : ℝ) = 0) :=
      fun h => absurd h.1 (ne_of_gt (pow_pos (by norm_num) 701)).symm
    have hn : ((0 : ℝ) - 0) * 2 ^ 700 + (0 - 2 ^ 701) * 2 ^ 700 + (2 ^ 701 * 0 - 0 * 0) =
        -(2 ^ 701 * 2 ^ 700) := by
      simp only [sub_self, zero_mul, zero_sub, mul_zero, zero_add, add_zero, neg_mul]
    have hdn : ((0 : ℝ) - 0) * (0 - 0) + (0 - 2 ^ 701) * (0 - 2 ^ 701) =
        2 ^ 701 * 2 ^ 701 := by
      simp only [sub_self, zero_mul, zero_sub, zero_add, neg_mul_neg]
    unfold perpendicularDistance
    dsimp only
    rw [if_neg hne, hn, hdn, hs, abs_neg, abs_of_pos (by positivity),
      mul_div_cancel_left₀ _ (ne_of_gt (by positivity))]
  have h0 := perpendicularDistance_start Real.sqrt Real.sqrt_zero
    (⟨0, 0, 0⟩ : Point ℝ) ⟨2 ^ 701, 0, 0⟩
  have h2 := perpendicularDistance_end Real.sqrt Real.sqrt_zero
    (⟨0, 0, 0⟩ : Point ℝ) ⟨2 ^ 701, 0, 0⟩
  have hpos : (0 : ℝ) < 2 ^ 700 := by positivity
  have h := scan_append_cons Real.sqrt (⟨0, 0, 0⟩ : Point ℝ) ⟨2 ^ 701, 0, 0⟩
    [⟨0, 0, 0⟩] [⟨2 ^ 701, 0, 0⟩] ⟨2 ^ 700, 2 ^ 700, 0⟩ 0 (0, 0)
    (by rw [hd]; exact hpos)
    (fun x hx => by
      rw [List.mem_singleton] at hx
      rw [hx, h0, hd]
      exact hpos)
    (fun y hy => by
      rw [List.mem_singleton] at hy
      rw [hy, h2, hd]
      exact le_of_lt hpos)
  rw [hd] at h
  exact h

/-- On `tenths` every point is at distance `2^-56`, not `0`, from the chord:
the constant `C` of the line is rounded. -/
theorem perpendicularDistance64_tenths (x : ℚ) :
    perpendicularDistance64 ⟨F64.fin x, F64.fin F64.tenth, 0⟩
      ⟨F64.fin 1, F64.fin F64.tenth, 0⟩ ⟨F64.fin 3, F64.fin F64.tenth, 0⟩ =
      F64.fin (1 / 2 ^ 56) := by
  simp only [perpendicularDistance64, F64.eq_one_three, Bool.false_eq_true, false_and,
    if_false]
  rw [F64.fin_sub_self, F64.one_sub_three, F64.three_mul_tenth, F64.one_mul_tenth,
    F64.three_tenth_sub_tenth, F64.zero_mul_fin, F64.neg_two_mul_tenth,
    F64.zero_add_neg_two_tenth, F64.numerator_tenth, F64.zero_mul_fin, F64.neg_two_mul_self,
    F64.zero_add_four, F64.sqrt_four, F64.abs_fin, abs_of_pos (by norm_num),
    F64.quotient_tenth]

/-- The `float64` scan of `tenths` ends with `maxDist = 2^-56`, `index = 0`. -/
theorem scan64_tenths :
    scan64 tenths[0] tenths[tenths.length - 1] tenths 0 (0, F64.fin 0) =
      (0, F64.fin (1 / 2 ^ 56)) := by
  have hgt : F64.gt (F64.fin (1 / 2 ^ 56)) (F64.fin 0) = true := by
    simp [F64.gt, F64.lt]
  have hge : F64.gt (F64.fin (1 / 2 ^ 56)) (F64.fin (1 / 2 ^ 56)) = false := by
    simp [F64.gt, F64.lt]
  exact scan64_three_first ⟨F64.fin 1, F64.fin F64.tenth, 0⟩
    ⟨F64.fin 3, F64.fin F64.tenth, 0⟩ ⟨F64.fin 1, F64.fin F64.tenth, 0⟩
    ⟨F64.fin 2, F64.fin F64.tenth, 0⟩ ⟨F64.fin 3, F64.fin F64.tenth, 0⟩ _
    (perpendicularDistance64_tenths 1) (perpendicularDistance64_tenths 2)
    (perpendicularDistance64_tenths 3) hgt hge

/-- At tolerance `0` the `float64` code keeps all three points of `tenths`. -/
theorem Simplify64_tenths : Simplify64 tenths (F64.fin 0) = tenths := by
  have hle : F64.le (F64.fin (1 / 2 ^ 56)) (F64.fin 0) = false := by
    simp [F64.le]
  rw [Simplify64_long tenths (F64.fin 0) (by decide), scan64_tenths]
  simp only [hle, Bool.false_eq_true, if_false]
  have hk : splitIndex 0 tenths.length = 1 := by decide
  rw [hk, Simplify64_short _ _ (by decide), Simplify64_short _ _ (by decide),
    List.take_append_drop]

/-! ## The order of `float64` values -/

/-- The comparison `<` of `float64` values is transitive. -/
theorem lt64_trans (x y z : F64) (h1 : F64.lt x y = true) (h2 : F64.lt y z = true) :
    F64.lt x z = true := by
  cases x <;> cases y <;> cases z <;> simp_all [F64.lt]
  linarith

/-- From `x < y` and `y <= z` follows `x < z`. -/
theorem lt64_of_lt_of_le (x y z : F64) (h1 : F64.lt x y = true) (h2 : F64.le y z = true) :
    F64.lt x z = true := by
  cases x <;> cases y <;> cases z <;> simp_all [F64.lt, F64.le]
  linarith

/-- From `x <= y` and `y < z` follows `x < z`. -/
theorem lt64_of_le_of_lt (x y z : F64) (h1 : F64.le x y = true) (h2 : F64.lt y z = true) :
    F64.lt x z = true := by
  cases x <;> cases y <;> cases z <;> simp_all [F64.lt, F64.le]
  linarith

/-- When `x < y`, the comparison `y <= x` is false. -/
theorem not_le64_of_lt (x y : F64) (h : F64.lt x y = true) : F64.le y x = false := by
  cases x <;> cases y <;> simp_all [F64.lt, F64.le]

/-- When `x < y`, also `x <= y`. -/
theorem le64_of_lt (x y : F64) (h : F64.lt x y = true) : F64.le x y = true := by
  cases x <;> cases y <;> simp_all [F64.lt, F64.le]
  linarith

/-- No `float64` value is smaller than itself. -/
theorem lt64_irrefl (x : F64) : F64.lt x x = false := by
  cases x <;> simp [F64.lt]

/-- Neither side of a true comparison `x < y` is a NaN. -/
theorem ne_nan_of_lt64 (x y : F64) (h : F64.lt x y = true) : x ≠ F64.nan ∧ y ≠ F64.nan := by
  cases x <;> cases y <;> simp_all [F64.lt]

/-- For two values that are not NaN, `x <= y` holds when `y < x` is false. -/
theorem le64_of_not_lt (x y : F64) (hx : x ≠ F64.nan) (hy : y ≠ F64.nan)
    (h : F64.lt y x = false) : F64.le x y = true := by
  cases x <;> cases y <;> simp_all [F64.lt, F64.le]
  rename_i a b
  cases a <;> cases b <;> simp_all

/-- When `y <= x` is false, `x == y` is false. -/
theorem not_eq64_of_not_le (x y : F64) (h : F64.le y x = false) : F64.eq x y = false := by
  cases x <;> cases y <;> simp_all [F64.le, F64.eq]
  intro h2
  rw [h2] at h
  exact lt_irrefl _ h

/-! ## The `float64` scan -/

/-- What the `float64` scan computes: either no distance compares greater than
the initial maximum and the state is unchanged, or the curve splits around the
point the scan reports; every point before it is smaller or a NaN, and no
point after it compares greater. -/
theorem scan64_spec (first last : Point F64) (ps : List (Point F64)) (i : Nat)
    (st : Nat × F64) :
    (scan64 first last ps i st = st ∧
        ∀ p ∈ ps, F64.gt (perpendicularDistance64 p first last) st.2 = false) ∨
      ∃ xs p ys, ps = xs ++ p :: ys ∧
        scan64 first last ps i st =
          (i + xs.length, perpendicularDistance64 p first last) ∧
        F64.lt st.2 (perpendicularDistance64 p first last) = true ∧
        (∀ x ∈ xs, F64.le (perpendicularDistance64 p first last)
          (perpendicularDistance64 x first last) = false) ∧
        ∀ y ∈ ys, F64.gt (perpendicularDistance64 y first last)
          (perpendicularDistance64 p first last) = false := by
  induction ps generalizing i st with
  | nil => left; exact ⟨rfl, fun p hp => by simp at hp⟩
  | cons q qs ih =>
    by_cases hq : F64.gt (perpendicularDistance64 q first last) st.2 = true
    · right
      have hsc : scan64 first last (q :: qs) i st =
          scan64 first last qs (i + 1) (i, perpendicularDistance64 q first last) := by
        rw [scan64]
        simp only [hq, if_true]
      rcases ih (i + 1) (i, perpendicularDistance64 q first last) with ⟨h1, h2⟩ | h
      · refine ⟨[], q, qs, rfl, ?_, hq, fun x hx => by simp at hx, h2⟩
        rw [hsc, h1]
        rfl
      · obtain ⟨xs, p, ys, hps, hres, hlt, hxs, hys⟩ := h
        refine ⟨q :: xs, p, ys, by rw [hps]; rfl, ?_, lt64_trans _ _ _ hq hlt, ?_, hys⟩
        · rw [hsc, hres, List.length_cons]
          congr 1
          omega
        · intro x hx
          rcases List.mem_cons.mp hx with rfl | hx
          · exact not_le64_of_lt _ _ hlt
          · exact hxs x hx
    · have hq2 : F64.gt (perpendicularDistance64 q first last) st.2 = false := by
        simpa using hq
      have hsc : scan64 first last (q :: qs) i st = scan64 first last qs (i + 1) st := by
        rw [scan64]
        simp only [hq2, Bool.false_eq_true, if_false]
      rcases ih (i + 1) st with ⟨h1, h2⟩ | h
      · left
        refine ⟨by rw [hsc, h1], ?_⟩
        intro p hp
        rcases List.mem_cons.mp hp with rfl | hp
        · exact hq2
        · exact h2 p hp
      · right
        obtain ⟨xs, p, ys, hps, hres, hlt, hxs, hys⟩ := h
        refine ⟨q :: xs, p, ys, by rw [hps]; rfl, ?_, hlt, ?_, hys⟩
        · rw [hsc, hres, List.length_cons]
          congr 1
          omega
        · intro x hx
          rcases List.mem_cons.mp hx with rfl | hx
          · cases hle : F64.le (perpendicularDistance64 p first last)
                (perpendicularDistance64 x first last) with
            | false => rfl
            | true =>
              have := lt64_of_lt_of_le _ _ _ hlt hle
              rw [F64.gt, this] at hq2
              exact absurd hq2 (by decide)
          · exact hxs x hx

/-- No distance compares greater than the maximum kept by the `float64`
scan. -/
theorem scan64_not_gt (first last : Point F64) (ps : List (Point F64)) (i : Nat)
    (st : Nat × F64) :
    ∀ p ∈ ps, F64.gt (perpendicularDistance64 p first last)
      (scan64 first last ps i st).2 = false := by
  rcases scan64_spec first last ps i st with ⟨h1, h2⟩ | ⟨xs, q, ys, hps, hres, hlt, hxs, hys⟩
  · rw [h1]; exact h2
  · rw [hres]
    intro p hp
    rw [hps] at hp
    rcases List.mem_append.mp hp with hp | hp
    · cases hgt : F64.gt (perpendicularDistance64 p first last)
          (perpendicularDistance64 q first last) with
      | false => rfl
      | true =>
        have := le64_of_lt _ _ hgt
        rw [hxs p hp] at this
        exact absurd this (by decide)
    · rcases List.mem_cons.mp hp with rfl | hp
      · exact lt64_irrefl _
      · exact hys p hp

/-- When the maximum kept by the `float64` scan is at most `e`, no distance
compares greater than `e`. -/
theorem scan64_not_gt_of_le (first last : Point F64) (ps : List (Point F64)) (i : Nat)
    (st : Nat × F64) (e : F64) (he : F64.le (scan64 first last ps i st).2 e = true) :
    ∀ p ∈ ps, F64.gt (perpendicularDistance64 p first last) e = false := by
  intro p hp
  cases hgt : F64.gt (perpendicularDistance64 p first last) e with
  | false => rfl
  | true =>
    have := lt64_of_le_of_lt _ _ _ he hgt
    have h2 := scan64_not_gt first last ps i st p hp
    rw [F64.gt, this] at h2
    exact absurd h2 (by decide)

/-! ## Structure of the `float64` recursion -/

/-- The split index of a curve of at least three points lies strictly
between `0` and the length. -/
theorem split64_pos_lt (points : List (Point F64)) (h : 2 < points.length) :
    0 < splitIndex (scan64 points[0] points[points.length - 1] points 0 (0, F64.fin 0)).1
        points.length ∧
      splitIndex (scan64 points[0] points[points.length - 1] points 0 (0, F64.fin 0)).1
        points.length < points.length :=
  splitIndex_range _ _
    (scan64_fst_lt points[0] points[points.length - 1] points (by omega)) (by omega)

/-- Induction along the recursion of `Simplify64`. -/
theorem Simplify64_induct (epsilon : F64) {motive : List (Point F64) → Prop}
    (short : ∀ ps : List (Point F64), ps.length ≤ 2 → motive ps)
    (collapse : ∀ (ps : List (Point F64)) (h : 2 < ps.length),
      F64.le (scan64 ps[0] ps[ps.length - 1] ps 0 (0, F64.fin 0)).2 epsilon = true →
      Simplify64 ps epsilon = [ps[0], ps[ps.length - 1]] → motive ps)
    (split : ∀ (ps : List (Point F64)) (h : 2 < ps.length) (k : Nat),
      k = splitIndex (scan64 ps[0] ps[ps.length - 1] ps 0 (0, F64.fin 0)).1 ps.length →
      0 < k → k < ps.length →
      ¬ F64.le (scan64 ps[0] ps[ps.length - 1] ps 0 (0, F64.fin 0)).2 epsilon = true →
      Simplify64 ps epsilon =
        Simplify64 (ps.take k) epsilon ++ Simplify64 (ps.drop k) epsilon →
      motive (ps.take k) → motive (ps.drop k) → motive ps)
    (points : List (Point F64)) : motive points := by
  generalize hn : points.length = n
  induction n using Nat.strong_induction_on generalizing points with
  | _ n ih =>
    subst hn
    by_cases h : points.length ≤ 2
    · exact short points h
    · have h2 : 2 < points.length := Nat.lt_of_not_le h
      have hk := split64_pos_lt points h2
      have hS := Simplify64_long points epsilon h2
      by_cases hc : F64.le
          (scan64 points[0] points[points.length - 1] points 0 (0, F64.fin 0)).2 epsilon = true
      · rw [if_pos hc] at hS
        exact collapse points h2 hc hS
      · rw [if_neg hc] at hS
        refine split points h2 _ rfl hk.1 hk.2 hc hS ?_ ?_
        · exact ih _ (by rw [List.length_take]; omega) _ rfl
        · exact ih _ (by rw [List.length_drop]; omega) _ rfl

/-- The positions kept by `Simplify64`: a chain of positions of the input,
starting at `0` and ending at the last position, whose points are the output,
and such that no position strictly between two neighbours of the chain holds a
point whose distance to the chord between them compares greater than
`epsilon`. -/
theorem Simplify64_positions (epsilon : F64) (points : List (Point F64)) :
    ∃ is : List Nat,
      (Simplify64 points epsilon).map some = is.map (fun i => points[i]?) ∧
      is.Chain' (fun a b => a < b ∧ b < points.length ∧
        ∀ j, a < j → j < b → ∀ pa pj pb, points[a]? = some pa → points[j]? = some pj →
          points[b]? = some pb →
            F64.gt (perpendicularDistance64 pj pa pb) epsilon = false) ∧
      (points ≠ [] → is.head? = some 0 ∧ is.getLast? = some (points.length - 1)) := by
  induction points using Simplify64_induct epsilon with
  | short ps h =>
    rw [Simplify64_short ps epsilon h]
    match ps, h with
    | [], _ => exact ⟨[], rfl, List.chain'_nil, fun h => absurd rfl h⟩
    | [a], _ => exact ⟨[0], rfl, List.chain'_singleton 0, fun _ => ⟨rfl, rfl⟩⟩
    | [a, b], _ =>
      refine ⟨[0, 1], rfl, ?_, fun _ => ⟨rfl, rfl⟩⟩
      simp only [List.chain'_cons, List.chain'_singleton, and_true, List.length_cons,
        List.length_nil]
      exact ⟨by omega, by omega, fun j h1 h2 => by omega⟩
  | collapse ps h hc hS =>
    rw [hS]
    refine ⟨[0, ps.length - 1], ?_, ?_, fun _ => ⟨rfl, rfl⟩⟩
    · simp only [List.map_cons, List.map_nil]
      rw [List.getElem?_eq_getElem, List.getElem?_eq_getElem]
    · simp only [List.chain'_cons, List.chain'_singleton, and_true]
      refine ⟨by omega, by omega, ?_⟩
      intro j _ _ pa pj pb ha hj hb
      rw [List.getElem?_eq_getElem (by omega)] at ha hb
      cases Option.some.inj ha
      cases Option.some.inj hb
      have hmem : pj ∈ ps := List.getElem?_mem hj
      exact scan64_not_gt_of_le ps[0] ps[ps.length - 1] ps 0 (0, F64.fin 0) epsilon hc
        pj hmem
  | split ps h k _ hk0 hkn _ hS ihl ihr =>
    obtain ⟨isL, hmL, hcL, hhL⟩ := ihl
    obtain ⟨isR, hmR, hcR, hhR⟩ := ihr
    have hlenL : (ps.take k).length = k := by rw [List.length_take]; omega
    have hlenR : (ps.drop k).length = ps.length - k := List.length_drop k ps
    have hl : ps.take k ≠ [] := List.ne_nil_of_length_pos (by omega)
    have hr : ps.drop k ≠ [] := List.ne_nil_of_length_pos (by omega)
    have hhL := hhL hl
    have hhR := hhR hr
    rw [hlenL] at hhL hcL
    rw [hlenR] at hhR hcR
    have hneL : isL ≠ [] := by
      rintro rfl
      simp at hhL
    have hneR : isR ≠ [] := by
      rintro rfl
      simp at hhR
    have hbL : ∀ i ∈ isL, i < k := by
      intro i hi
      have hmem : (ps.take k)[i]? ∈ (Simplify64 (ps.take k) epsilon).map some := by
        rw [hmL]
        exact List.mem_map_of_mem _ hi
      obtain ⟨q, _, hq⟩ := List.mem_map.mp hmem
      have := (List.getElem?_eq_some_iff.mp hq.symm).1
      omega
    refine ⟨isL ++ isR.map (fun i => i + k), ?_, ?_, fun _ => ⟨?_, ?_⟩⟩
    · rw [hS, List.map_append, hmL, hmR, List.map_append, List.map_map]
      congr 1
      · apply List.map_congr_left
        intro i hi
        rw [List.getElem?_take_of_lt (hbL i hi)]
      · apply List.map_congr_left
        intro i _
        simp only [Function.comp]
        rw [List.getElem?_drop, Nat.add_comm]
    · refine List.Chain'.append ?_ ?_ ?_
      · refine hcL.imp ?_
        rintro a b ⟨hab, hb, hj⟩
        refine ⟨hab, by omega, ?_⟩
        intro j h1 h2 pa pj pb ha hj2 hb2
        refine hj j h1 h2 pa pj pb ?_ ?_ ?_
        · rw [List.getElem?_take_of_lt (by omega)]; exact ha
        · rw [List.getElem?_take_of_lt (by omega)]; exact hj2
        · rw [List.getElem?_take_of_lt (by omega)]; exact hb2
      · rw [List.chain'_map]
        refine hcR.imp ?_
        rintro a b ⟨hab, hb, hj⟩
        refine ⟨by omega, by omega, ?_⟩
        intro j h1 h2 pa pj pb ha hj2 hb2
        refine hj (j - k) (by omega) (by omega) pa pj pb ?_ ?_ ?_
        · rw [List.getElem?_drop, Nat.add_comm]; exact ha
        · rw [List.getElem?_drop, show k + (j - k) = j by omega]; exact hj2
        · rw [List.getElem?_drop, Nat.add_comm]; exact hb2
      · intro x hx y hy
        rw [hhL.2] at hx
        rw [List.head?_map, hhR.1] at hy
        cases hx
        cases hy
        dsimp only
        exact ⟨by omega, by omega, fun j h1 h2 => by omega⟩
    · rw [List.head?_append_of_ne_nil _ hneL]
      exact hhL.1
    · rw [List.getLast?_append_of_ne_nil _ (by simpa using hneR), List.getLast?_map, hhR.2]
      simp only [Option.map_some']
      congr 1
      omega

/-! ## Two facts used for the collapse of the `float64` code -/

/-- Zero divided by anything is zero or a NaN. -/
theorem zero_div64 (y : F64) :
    (F64.fin 0 / y : F64) = F64.fin 0 ∨ (F64.fin 0 / y : F64) = F64.nan := by
  cases y with
  | fin b =>
    by_cases hb : b = 0
    · right
      show F64.div (F64.fin 0) (F64.fin b) = F64.nan
      simp only [F64.div, hb, if_true]
    · left
      rw [F64.fin_div_fin _ _ hb, zero_div, F64.round_zero]
  | inf n => left; rfl
  | nan => right; rfl

/-- A curve of two points is its first point followed by its last. -/
theorem two_points_eq {β : Type} (P : List β) (h : P.length = 2) :
    P = [P[0], P[P.length - 1]] := by
  match P, h with
  | [a, b], _ => rfl

/-! ## Order, endpoints, length, totality -/

/-- C3 (order preservation): for every curve and every tolerance the output of
`Simplify` is a sublist of the input: every output point is a point of the
input (same `X`, `Y` and `Index`) and the output keeps the input's order. -/
theorem Simplify_order_preserved [LinearOrderedField α] (sqrt : α → α)
    (P : List (Point α)) (e : α) :
    (Simplify sqrt P e).Sublist P :=
  Simplify_sublist_self sqrt P e

/-- C4 (endpoint preservation): for every non-empty curve and every tolerance
the output of `Simplify` is non-empty, starts with the first point of the
input and ends with its last point. -/
theorem Simplify_endpoints [LinearOrderedField α] (sqrt : α → α)
    (P : List (Point α)) (e : α) (hP : P ≠ []) :
    Simplify sqrt P e ≠ [] ∧
      (Simplify sqrt P e).head? = some (P.head hP) ∧
        (Simplify sqrt P e).getLast? = some (P.getLast hP) := by
  have h := Simplify_head_getLast sqrt P e
  refine ⟨Simplify_ne_nil sqrt P e hP, ?_, ?_⟩
  · rw [h.1, List.head?_eq_head hP]
  · rw [h.2, List.getLast?_eq_getLast _ hP]

/-- Witness of C4 on the triangle `tri` at tolerance `0`. -/
theorem Simplify_endpoints_witness :
    ∃ hP : tri ≠ [], Simplify Real.sqrt tri 0 ≠ [] ∧
      (Simplify Real.sqrt tri 0).head? = some (tri.head hP) ∧
        (Simplify Real.sqrt tri 0).getLast? = some (tri.getLast hP) :=
  ⟨by simp [tri], Simplify_endpoints Real.sqrt tri 0 (by simp [tri])⟩

/-- C5 (monotonicity in tolerance): for `e1 ≤ e2` the output at `e1` has at
least as many points as the output at `e2`. -/
theorem Simplify_length_antitone [LinearOrderedField α] (sqrt : α → α)
    (P : List (Point α)) (e1 e2 : α) (he : e1 ≤ e2) :
    (Simplify sqrt P e2).length ≤ (Simplify sqrt P e1).length :=
  (Simplify_sublist_of_le sqrt P e1 e2 he).length_le

/-- Witness of C5 on the triangle `tri` at tolerances `0 ≤ 1`. -/
theorem Simplify_length_antitone_witness :
    (0 : ℝ) ≤ 1 ∧
      (Simplify Real.sqrt tri 1).length ≤ (Simplify Real.sqrt tri 0).length :=
  ⟨zero_le_one, Simplify_length_antitone Real.sqrt tri 0 1 zero_le_one⟩

/-- C6 (totality): `Simplify` is a total function, defined by recursion on the
length of the curve; whenever the curve has at least three points and is not
collapsed, the two sub-curves `points[:index]` and `points[index:]` handed to
the recursive calls are non-empty and strictly shorter than the input, and the
result is the concatenation of the two recursive results.  No assumption is
made on `epsilon` (zero and negative values included). -/
theorem Simplify_subcurves_shorter [LinearOrderedField α] (sqrt : α → α)
    (points : List (Point α)) (epsilon : α) (h : 2 < points.length)
    (hc : ¬ (scan sqrt points[0] points[points.length - 1] points 0 (0, 0)).2 ≤ epsilon) :
    ∀ index : Nat,
      index = splitIndex
        (scan sqrt points[0] points[points.length - 1] points 0 (0, 0)).1 points.length →
      (0 < (points.take index).length ∧ (points.take index).length < points.length) ∧
      (0 < (points.drop index).length ∧ (points.drop index).length < points.length) ∧
      Simplify sqrt points epsilon =
        Simplify sqrt (points.take index) epsilon ++
          Simplify sqrt (points.drop index) epsilon := by
  intro index hi
  have hk := split_pos_lt sqrt points h
  rw [← hi] at hk
  have hS := Simplify_long sqrt points epsilon h
  rw [if_neg hc, ← hi] at hS
  rw [List.length_take, List.length_drop]
  exact ⟨⟨by omega, by omega⟩, ⟨by omega, by omega⟩, hS⟩

/-- Witness of C6 on the triangle `tri` at tolerance `0`: the scan reports
distance `1` at position `1`, and the curve is cut into one and two points. -/
theorem Simplify_subcurves_shorter_witness :
    (0 < (tri.take 1).length ∧ (tri.take 1).length < tri.length) ∧
      (0 < (tri.drop 1).length ∧ (tri.drop 1).length < tri.length) ∧
      Simplify Real.sqrt tri 0 =
        Simplify Real.sqrt (tri.take 1) 0 ++ Simplify Real.sqrt (tri.drop 1) 0 :=
  Simplify_subcurves_shorter Real.sqrt tri 0 (by decide)
    (by rw [scan_tri]; norm_num) 1 (by rw [scan_tri]; simp [splitIndex, tri])

/-- C7 (short-input identity): a curve with at most two points (the empty
curve and two identical points included) is returned unchanged, for every
tolerance. -/
theorem Simplify_short_identity [LinearOrderedField α] (sqrt : α → α)
    (P : List (Point α)) (e : α) (h : P.length ≤ 2) :
    Simplify sqrt P e = P :=
  Simplify_short sqrt P e h

/-- Witness of C7 on two identical points. -/
theorem Simplify_short_identity_witness :
    ([⟨0, 0, 0⟩, ⟨0, 0, 0⟩] : List (Point ℝ)).length ≤ 2 ∧
      Simplify Real.sqrt [⟨0, 0, 0⟩, ⟨0, 0, 0⟩] (1 / 10) = [⟨0, 0, 0⟩, ⟨0, 0, 0⟩] :=
  ⟨by decide, Simplify_short_identity Real.sqrt _ _ (by decide)⟩

/-! ## Idempotence and the error bound -/

/-- C1 (idempotence): over exact real coordinates, for every curve `P` (of any
length) and every tolerance `e ≥ 0`, simplifying the output of `Simplify`
again at the same tolerance returns it unchanged. -/
theorem Simplify_idempotent (P : List (Point ℝ)) (e : ℝ) (he : 0 ≤ e) :
    Simplify Real.sqrt (Simplify Real.sqrt P e) e = Simplify Real.sqrt P e :=
  Simplify_Simplify Real.sqrt Real.sqrt_zero e he P

/-- Witness of C1 on the triangle `tri` at tolerance `0`. -/
theorem Simplify_idempotent_witness :
    (0 : ℝ) ≤ 0 ∧
      Simplify Real.sqrt (Simplify Real.sqrt tri 0) 0 = Simplify Real.sqrt tri 0 :=
  ⟨le_refl 0, Simplify_idempotent tri 0 (le_refl 0)⟩

/-- C2, as the claim states it, fails on the `float64` code: at tolerance `0`
the curve `big` is collapsed to its two anchors, so position `1` is discarded
between the retained positions `0` and `2`, yet the distance of `big[1]` to the
chord is a NaN (overflow), and `NaN <= 0` is false.  No list of retained
positions satisfies the error bound. -/
theorem Simplify_error_bound_counterexample :
    F64.le (F64.fin 0) (F64.fin 0) = true ∧
    Simplify64 big (F64.fin 0) = [big[0], big[2]] ∧
    perpendicularDistance64 big[1] big[0] big[2] = F64.nan ∧
    F64.le (perpendicularDistance64 big[1] big[0] big[2]) (F64.fin 0) = false ∧
    ¬ ∃ is : List Nat,
      is.Pairwise (fun a b => a < b) ∧
      (∀ i ∈ is, i < big.length) ∧
      (big ≠ [] → is.head? = some 0 ∧ is.getLast? = some (big.length - 1)) ∧
      (Simplify64 big (F64.fin 0)).map some = is.map (fun i => big[i]?) ∧
      is.Chain' (fun a b => ∀ j, a < j → j < b → ∀ pa pj pb,
        big[a]? = some pa → big[j]? = some pj → big[b]? = some pb →
          F64.le (perpendicularDistance64 pj pa pb) (F64.fin 0) = true) := by
  have hd : perpendicularDistance64 big[1] big[0] big[2] = F64.nan :=
    perpendicularDistance64_big_1
  have hle : F64.le (F64.fin 0) (F64.fin 0) = true := by simp [F64.le]
  refine ⟨hle, Simplify64_big, hd, by rw [hd]; rfl, ?_⟩
  rintro ⟨is, _, _, hends, hmap, hchain⟩
  have hends2 := hends (List.ne_nil_of_length_pos (by decide))
  rw [Simplify64_big] at hmap
  have hlen : is.length = 2 := by
    have h := congrArg List.length hmap
    rw [List.length_map, List.length_map] at h
    exact h.symm
  match is, hlen, hends2, hchain with
  | [a, b], _, hab, hch =>
    have ha : a = 0 := by
      have h := hab.1
      rw [List.head?_cons] at h
      exact Option.some.inj h
    have hb : b = 2 := by
      have h := hab.2
      rw [List.getLast?_cons_cons, List.getLast?_singleton] at h
      exact Option.some.inj h
    subst ha
    subst hb
    have h := List.chain'_pair.mp hch 1 (by decide) (by decide) big[0] big[1] big[2]
      rfl rfl rfl
    rw [hd] at h
    exact absurd h (by decide)

/-- C2, amended (error bound of the `float64` code): for every curve `P` and
every tolerance `e` the output of `Simplify` consists of the points of `P` at
strictly increasing positions `is`, which start at `0` and end at the last
position when `P` is not empty; and for any two consecutive retained positions
`a`, `b` and every position `j` strictly between them, the distance of `P[j]`
to the chord from `P[a]` to `P[b]` does not compare greater than `e`: it is
`<= e` or, after an overflow, a NaN. -/
theorem Simplify64_error_bound (P : List (Point F64)) (e : F64) :
    ∃ is : List Nat,
      is.Pairwise (fun a b => a < b) ∧
      (∀ i ∈ is, i < P.length) ∧
      (P ≠ [] → is.head? = some 0 ∧ is.getLast? = some (P.length - 1)) ∧
      (Simplify64 P e).map some = is.map (fun i => P[i]?) ∧
      is.Chain' (fun a b => ∀ j, a < j → j < b → ∀ pa pj pb,
        P[a]? = some pa → P[j]? = some pj → P[b]? = some pb →
          F64.gt (perpendicularDistance64 pj pa pb) e = false) := by
  obtain ⟨is, hmap, hchain, hends⟩ := Simplify64_positions e P
  refine ⟨is, ?_, ?_, hends, hmap, hchain.imp (fun a b h => h.2.2)⟩
  · exact List.chain'_iff_pairwise.mp (hchain.imp (fun a b h => h.1))
  · intro i hi
    have hmem : P[i]? ∈ (Simplify64 P e).map some := by
      rw [hmap]
      exact List.mem_map_of_mem _ hi
    obtain ⟨q, _, hq⟩ := List.mem_map.mp hmem
    exact (List.getElem?_eq_some_iff.mp hq.symm).1

/-- The error bound in exact arithmetic: with coordinates and arithmetic taken
as exact (any linearly ordered field, in particular the reals), for every
curve `P` and every tolerance `e` (in particular every `e ≥ 0`) the output of
`Simplify` consists of the points of `P` at strictly
increasing positions `is`, which start at `0` and end at the last position
when `P` is not empty; and for any two consecutive retained positions `a`, `b`
and every position `j` strictly between them, the point `P[j]` is within
perpendicular distance `e` of the chord from `P[a]` to `P[b]`. -/
theorem Simplify_error_bound [LinearOrderedField α] (sqrt : α → α)
    (P : List (Point α)) (e : α) :
    ∃ is : List Nat,
      is.Pairwise (fun a b => a < b) ∧
      (∀ i ∈ is, i < P.length) ∧
      (P ≠ [] → is.head? = some 0 ∧ is.getLast? = some (P.length - 1)) ∧
      (Simplify sqrt P e).map some = is.map (fun i => P[i]?) ∧
      is.Chain' (fun a b => ∀ j, a < j → j < b → ∀ pa pj pb,
        P[a]? = some pa → P[j]? = some pj → P[b]? = some pb →
          perpendicularDistance sqrt pj pa pb ≤ e) := by
  obtain ⟨is, hmap, hchain, hends⟩ := Simplify_positions sqrt e P
  refine ⟨is, ?_, ?_, hends, hmap, hchain.imp (fun a b h => h.2.2)⟩
  · exact List.chain'_iff_pairwise.mp (hchain.imp (fun a b h => h.1))
  · intro i hi
    have hmem : P[i]? ∈ (Simplify sqrt P e).map some := by
      rw [hmap]
      exact List.mem_map_of_mem _ hi
    obtain ⟨q, _, hq⟩ := List.mem_map.mp hmem
    exact (List.getElem?_eq_some_iff.mp hq.symm).1

/-! ## Collapse -/

/-- C8 (chord collapse): over exact real coordinates, for every curve `P` of
at least three points and every tolerance `e`, if every point of `P`
(endpoints included) is within perpendicular distance `e` of the chord from the
first to the last point, then `Simplify P e` is exactly `[first, last]`; and
there is a tolerance `E` from which on `Simplify P e = [first, last]`. -/
theorem Simplify_chord_collapse (P : List (Point ℝ)) (h : 2 < P.length) :
    (∀ e : ℝ,
      (∀ (i : Nat) (hi : i < P.length),
        perpendicularDistance Real.sqrt P[i] P[0] P[P.length - 1] ≤ e) →
      Simplify Real.sqrt P e = [P[0], P[P.length - 1]]) ∧
    ∃ E : ℝ, ∀ e : ℝ, E ≤ e → Simplify Real.sqrt P e = [P[0], P[P.length - 1]] := by
  constructor
  · intro e hall
    have he : 0 ≤ e := by
      have := hall 0 (by omega)
      rwa [perpendicularDistance_start Real.sqrt Real.sqrt_zero] at this
    apply Simplify_collapse_of_le Real.sqrt e he P h
    intro p hp
    obtain ⟨i, hi, rfl⟩ := List.getElem_of_mem hp
    exact hall i hi
  · refine ⟨(scan Real.sqrt P[0] P[P.length - 1] P 0 (0, 0)).2, ?_⟩
    intro e hE
    rw [Simplify_long Real.sqrt P e h, if_pos hE]

/-- Witness of C8 on the triangle `tri`. -/
theorem Simplify_chord_collapse_witness :
    2 < tri.length ∧
    (∀ e : ℝ,
      (∀ (i : Nat) (hi : i < tri.length),
        perpendicularDistance Real.sqrt tri[i] tri[0] tri[tri.length - 1] ≤ e) →
      Simplify Real.sqrt tri e = [tri[0], tri[tri.length - 1]]) ∧
    ∃ E : ℝ, ∀ e : ℝ, E ≤ e → Simplify Real.sqrt tri e = [tri[0], tri[tri.length - 1]] :=
  ⟨by decide, Simplify_chord_collapse tri (by decide)⟩

/-- C9, as the claim states it, fails three times: a one-point curve is
returned as it is (one point, not `[first, last]`); on the closed curve `loop`
the chord is degenerate, every point satisfies the line equation `0 = 0`, and
yet at tolerance `0` all three points are kept; and on the `float64` code the
three points `(1, 0.1)`, `(2, 0.1)`, `(3, 0.1)`, which lie exactly on one line,
are all kept at tolerance `0`, because the rounded arithmetic gives each of
them the distance `2^-56`. -/
theorem Simplify_collinear_counterexample :
    (([⟨0, 0, 0⟩] : List (Point ℝ)) ≠ [] ∧ (0 : ℝ) ≤ 0 ∧
      (∀ p ∈ ([⟨0, 0, 0⟩] : List (Point ℝ)), onLine p ⟨0, 0, 0⟩ ⟨0, 0, 0⟩) ∧
      Simplify Real.sqrt [⟨0, 0, 0⟩] 0 ≠ [⟨0, 0, 0⟩, ⟨0, 0, 0⟩]) ∧
    (loop ≠ [] ∧ (0 : ℝ) ≤ 0 ∧
      (∀ p ∈ loop, onLine p loop[0] loop[loop.length - 1]) ∧
      Simplify Real.sqrt loop 0 ≠ [loop[0], loop[loop.length - 1]]) ∧
    (tenthsExact ≠ [] ∧ F64.le (F64.fin 0) (F64.fin 0) = true ∧
      (∀ p ∈ tenthsExact, onLine p tenthsExact[0] tenthsExact[tenthsExact.length - 1]) ∧
      tenths = tenthsExact.map (fun p => ⟨F64.fin p.X, F64.fin p.Y, p.Index⟩) ∧
      Simplify64 tenths (F64.fin 0) = tenths ∧
      Simplify64 tenths (F64.fin 0) ≠ [tenths[0], tenths[tenths.length - 1]]) := by
  refine ⟨⟨by simp, le_refl 0, ?_, ?_⟩, ⟨by simp [loop], le_refl 0, ?_, ?_⟩,
    ⟨List.ne_nil_of_length_pos (by decide), by simp [F64.le], ?_, rfl, Simplify64_tenths, ?_⟩⟩
  · intro p _
    simp [onLine]
  · rw [Simplify_short Real.sqrt _ 0 (by decide)]
    simp
  · intro p _
    simp [onLine, loop]
  · rw [Simplify_loop]
    simp [loop]
  · intro p hp
    simp only [tenthsExact, List.mem_cons, List.mem_singleton, List.not_mem_nil,
      or_false] at hp
    rcases hp with rfl | rfl | rfl <;>
      · simp only [onLine, tenthsExact, List.getElem_cons_zero, List.length_cons,
          List.length_nil, List.getElem_cons_succ]
        ring
  · rw [Simplify64_tenths]
    intro h
    have h2 := congrArg List.length h
    revert h2
    decide

/-- C9, amended (collapse at zero deviation of the `float64` code): for every
curve `P` of at least two points and every tolerance `e ≥ 0`, if, when the
first and last point differ in a coordinate, the value of `A*x + B*y + C`
computed by the code is exactly `0` for every point of `P`, and, when they have
the same coordinates (the distance used is then `euclidean` to the first
point), no point's distance to the first point compares greater than `e`, then
`Simplify P e = [first, last]`. -/
theorem Simplify64_collinear (P : List (Point F64)) (e : F64)
    (he : F64.le (F64.fin 0) e = true) (h2 : 2 ≤ P.length)
    (hline : ¬ (F64.eq P[0].X P[P.length - 1].X ∧ F64.eq P[0].Y P[P.length - 1].Y) →
      ∀ p ∈ P, onLine64 p P[0] P[P.length - 1])
    (hdeg : (F64.eq P[0].X P[P.length - 1].X ∧ F64.eq P[0].Y P[P.length - 1].Y) →
      ∀ p ∈ P, F64.gt (euclidean64 p P[0]) e = false) :
    Simplify64 P e = [P[0], P[P.length - 1]] := by
  by_cases h : P.length ≤ 2
  · rw [Simplify64_short P e h]
    exact two_points_eq P (Nat.le_antisymm h h2)
  · have h3 : 2 < P.length := Nat.lt_of_not_le h
    have hc : F64.le (scan64 P[0] P[P.length - 1] P 0 (0, F64.fin 0)).2 e = true := by
      rcases scan64_spec P[0] P[P.length - 1] P 0 (0, F64.fin 0) with
        ⟨h1, _⟩ | ⟨xs, p, ys, hps, hres, hlt, _, _⟩
      · rw [h1]; exact he
      · rw [hres]
        have hmem : p ∈ P := by rw [hps]; simp
        by_cases hd : F64.eq P[0].X P[P.length - 1].X ∧ F64.eq P[0].Y P[P.length - 1].Y
        · have hpd : perpendicularDistance64 p P[0] P[P.length - 1] =
              euclidean64 p P[0] := by
            unfold perpendicularDistance64
            rw [if_pos hd]
          have hgt := hdeg hd p hmem
          rw [← hpd] at hgt
          have hne := ne_nan_of_lt64 _ _ hlt
          have hen : e ≠ F64.nan := by
            intro hn
            rw [hn] at he
            exact absurd he (by decide)
          exact le64_of_not_lt _ _ hne.2 hen hgt
        · exfalso
          have hon := hline hd p hmem
          unfold onLine64 at hon
          have hpd : perpendicularDistance64 p P[0] P[P.length - 1] = F64.fin 0 ∨
              perpendicularDistance64 p P[0] P[P.length - 1] = F64.nan := by
            unfold perpendicularDistance64
            rw [if_neg hd]
            simp only [hon, F64.abs_fin, abs_zero]
            exact zero_div64 _
          rcases hpd with hpd | hpd <;> rw [hpd] at hlt
          · rw [lt64_irrefl] at hlt
            exact absurd hlt (by decide)
          · exact absurd hlt (by decide)
    rw [Simplify64_long P e h3, if_pos hc]

/-- Witness of the amended C9 on `flat64` at tolerance `0`: every computed
value of `A*x + B*y + C` is `0` and the curve collapses. -/
theorem Simplify64_collinear_witness :
    F64.le (F64.fin 0) (F64.fin 0) = true ∧ 2 ≤ flat64.length ∧
      (∀ p ∈ flat64, onLine64 p flat64[0] flat64[flat64.length - 1]) ∧
      Simplify64 flat64 (F64.fin 0) = [flat64[0], flat64[flat64.length - 1]] :=
  have hle : F64.le (F64.fin 0) (F64.fin 0) = true := by simp [F64.le]
  have hsub : (F64.fin 0 - F64.fin 2 : F64) = F64.fin (-2) := by
    rw [F64.fin_sub_fin]
    exact F64.round_eq_fin _ _ (-2) 0 (by norm_num) (by norm_num) (by norm_num)
      (by norm_num) (by norm_num)
  have hline : ∀ p ∈ flat64, onLine64 p flat64[0] flat64[flat64.length - 1] := by
    intro p hp
    simp only [flat64, List.mem_cons, List.mem_singleton, List.not_mem_nil, or_false] at hp
    rcases hp with rfl | rfl | rfl <;>
      simp only [onLine64, flat64, List.getElem_cons_zero, List.length_cons,
        List.length_nil, List.getElem_cons_succ, F64.fin_sub_self, hsub, F64.zero_mul_fin,
        F64.fin_mul_zero, F64.zero_add_zero]
  ⟨hle, by decide, hline,
    Simplify64_collinear flat64 (F64.fin 0) hle (by decide) (fun _ => hline)
      (fun hd => absurd hd.1 (by simp [flat64, F64.eq]))⟩

/-- The collapse at zero deviation in exact arithmetic: with coordinates and
arithmetic taken as exact (any linearly ordered field, in particular the
reals), for every curve `P` of at least two
points and every tolerance `e ≥ 0`, if every point of `P` satisfies the line
equation
`A*x + B*y + C = 0` of the chord from the first to the last point and, in case
the first and last point have the same coordinates (the equation is then
`0 = 0` and the distance used is `euclidean` to the first point), every point
is within `e` of the first point, then `Simplify P e = [first, last]`. -/
theorem Simplify_collinear [LinearOrderedField α] (sqrt : α → α)
    (P : List (Point α)) (e : α) (he : 0 ≤ e) (h2 : 2 ≤ P.length)
    (hline : ∀ p ∈ P, onLine p P[0] P[P.length - 1])
    (hdeg : P[0].X = P[P.length - 1].X ∧ P[0].Y = P[P.length - 1].Y →
      ∀ p ∈ P, euclidean sqrt p P[0] ≤ e) :
    Simplify sqrt P e = [P[0], P[P.length - 1]] := by
  by_cases h : P.length ≤ 2
  · rw [Simplify_short sqrt P e h]
    match P, h2, h with
    | [a, b], _, _ => rfl
  · apply Simplify_collapse_of_le sqrt e he P (Nat.lt_of_not_le h)
    intro p hp
    by_cases hd : P[0].X = P[P.length - 1].X ∧ P[0].Y = P[P.length - 1].Y
    · have := hdeg hd p hp
      unfold perpendicularDistance
      rwa [if_pos hd]
    · rw [perpendicularDistance_onLine sqrt p _ _ hd (hline p hp)]
      exact he

/-- The collapse in exact arithmetic on three points of the diagonal. -/
theorem Simplify_collinear_witness :
    (0 : ℝ) ≤ 0 ∧ 2 ≤ diag.length ∧
      (∀ p ∈ diag, onLine p diag[0] diag[diag.length - 1]) ∧
      Simplify Real.sqrt diag 0 = [diag[0], diag[diag.length - 1]] :=
  have hline : ∀ p ∈ diag, onLine p diag[0] diag[diag.length - 1] := by
    intro p hp
    simp only [diag, List.mem_cons, List.mem_singleton, List.not_mem_nil, or_false] at hp
    rcases hp with rfl | rfl | rfl <;> simp [onLine, diag]
  ⟨le_refl 0, by decide, hline,
    Simplify_collinear Real.sqrt diag 0 (le_refl 0) (by decide) hline
      (fun hd => absurd hd.1 (by simp [diag]))⟩

/-! ## Negative tolerance -/

/-- C10, as the claim states it, fails on the three collinear points of
`flat`: at tolerance `-1` all three are kept, at tolerance `0` the middle one
is dropped. -/
theorem Simplify_neg_counterexample :
    (-1 : ℝ) < 0 ∧ Simplify Real.sqrt flat (-1) ≠ Simplify Real.sqrt flat 0 := by
  refine ⟨by norm_num, ?_⟩
  rw [Simplify_of_neg Real.sqrt (-1) (by norm_num) flat, Simplify_flat]
  simp [flat]

/-- C10, amended: a negative tolerance is not treated as zero, it keeps every
point.  For every curve `P` and every `e < 0`, `Simplify P e = P`; the output
at tolerance `0` is a sublist of it, and the two are equal exactly when
tolerance `0` discards nothing. -/
theorem Simplify_neg_vs_zero [LinearOrderedField α] (sqrt : α → α)
    (P : List (Point α)) (e : α) (he : e < 0) :
    Simplify sqrt P e = P ∧
      (Simplify sqrt P 0).Sublist (Simplify sqrt P e) ∧
      (Simplify sqrt P e = Simplify sqrt P 0 ↔ Simplify sqrt P 0 = P) := by
  have h := Simplify_of_neg sqrt e he P
  refine ⟨h, Simplify_sublist_of_le sqrt P e 0 (le_of_lt he), ?_⟩
  rw [h]
  exact eq_comm

/-- Witness of the amended C10 on `flat` at tolerance `-1`. -/
theorem Simplify_neg_vs_zero_witness :
    (-1 : ℝ) < 0 ∧ Simplify Real.sqrt flat (-1) = flat ∧
      (Simplify Real.sqrt flat 0).Sublist (Simplify Real.sqrt flat (-1)) ∧
      (Simplify Real.sqrt flat (-1) = Simplify Real.sqrt flat 0 ↔
        Simplify Real.sqrt flat 0 = flat) :=
  ⟨by norm_num, Simplify_neg_vs_zero Real.sqrt flat (-1) (by norm_num)⟩

/-- C18 (negative tolerance keeps everything): for every curve `P` and every
`e < 0`, `Simplify P e = P`; the collapse test `maxDist <= e` never succeeds,
because `maxDist` starts at `0` and only grows. -/
theorem Simplify_neg_identity [LinearOrderedField α] (sqrt : α → α)
    (P : List (Point α)) (e : α) (he : e < 0) :
    Simplify sqrt P e = P ∧
      ∀ h : 2 < P.length, ¬ (scan sqrt P[0] P[P.length - 1] P 0 (0, 0)).2 ≤ e := by
  refine ⟨Simplify_of_neg sqrt e he P, fun h hc => ?_⟩
  have h0 := (scan_snd_ge sqrt P[0] P[P.length - 1] P 0 (0, 0)).1
  exact absurd (lt_of_le_of_lt (le_trans h0 hc) he) (lt_irrefl _)

/-- Witness of C18 on the triangle `tri` at tolerance `-1`. -/
theorem Simplify_neg_identity_witness :
    (-1 : ℝ) < 0 ∧ Simplify Real.sqrt tri (-1) = tri ∧
      ∀ h : 2 < tri.length,
        ¬ (scan Real.sqrt tri[0] tri[tri.length - 1] tri 0 (0, 0)).2 ≤ -1 :=
  ⟨by norm_num, Simplify_neg_identity Real.sqrt tri (-1) (by norm_num)⟩

/-! ## Nested outputs and length bounds -/

/-- C17 (nested outputs): for every curve `P` and all tolerances `e1 ≤ e2`,
`Simplify P e2` is a sublist of `Simplify P e1`: raising the tolerance only
removes points. -/
theorem Simplify_nested [LinearOrderedField α] (sqrt : α → α)
    (P : List (Point α)) (e1 e2 : α) (he : e1 ≤ e2) :
    (Simplify sqrt P e2).Sublist (Simplify sqrt P e1) :=
  Simplify_sublist_of_le sqrt P e1 e2 he

/-- Witness of C17 on the triangle `tri` at tolerances `0 ≤ 1`. -/
theorem Simplify_nested_witness :
    (0 : ℝ) ≤ 1 ∧ (Simplify Real.sqrt tri 1).Sublist (Simplify Real.sqrt tri 0) :=
  ⟨zero_le_one, Simplify_nested Real.sqrt tri 0 1 zero_le_one⟩

/-- C19 (output length bounds): for every curve `P` and every tolerance `e`,
`min |P| 2 ≤ |Simplify P e| ≤ |P|`; a curve of at least two points is never
reduced to fewer than two points. -/
theorem Simplify_length_bounds [LinearOrderedField α] (sqrt : α → α)
    (P : List (Point α)) (e : α) :
    min P.length 2 ≤ (Simplify sqrt P e).length ∧
      (Simplify sqrt P e).length ≤ P.length := by
  refine ⟨?_, (Simplify_sublist_self sqrt P e).length_le⟩
  by_cases h : P.length ≤ 2
  · rw [Simplify_short sqrt P e h]
    exact min_le_left _ _
  · have h2 : 2 < P.length := Nat.lt_of_not_le h
    have hk := split_pos_lt sqrt P h2
    rw [Simplify_long sqrt P e h2]
    split
    · exact min_le_right _ _
    · have hl := List.length_pos.mpr (Simplify_ne_nil sqrt (P.take (splitIndex
        (scan sqrt P[0] P[P.length - 1] P 0 (0, 0)).1 P.length)) e
        (List.ne_nil_of_length_pos (by rw [List.length_take]; omega)))
      have hr := List.length_pos.mpr (Simplify_ne_nil sqrt (P.drop (splitIndex
        (scan sqrt P[0] P[P.length - 1] P 0 (0, 0)).1 P.length)) e
        (List.ne_nil_of_length_pos (by rw [List.length_drop]; omega)))
      rw [List.length_append]
      have := min_le_right P.length 2
      omega

/-! ## The distance helpers -/

/-- C12 (degenerate line): when `start` and `end_` have the same coordinates
(`Index` ignored), `perpendicularDistance p start end_` is `euclidean p start`,
that is `sqrt ((start.X - p.X)^2 + (start.Y - p.Y)^2)`. -/
theorem perpendicularDistance_degenerate [LinearOrderedField α] (sqrt : α → α)
    (p start end_ : Point α) (h : start.X = end_.X ∧ start.Y = end_.Y) :
    perpendicularDistance sqrt p start end_ = euclidean sqrt p start ∧
      euclidean sqrt p start = sqrt ((start.X - p.X) ^ 2 + (start.Y - p.Y) ^ 2) := by
  constructor
  · unfold perpendicularDistance
    rw [if_pos h]
  · unfold euclidean
    simp only [pow_two]

/-- Witness of C12 on the test case `p = (5, 6)`, `start = end = (2, 0)`. -/
theorem perpendicularDistance_degenerate_witness :
    (((⟨2, 0, 0⟩ : Point ℝ).X = (⟨2, 0, 1⟩ : Point ℝ).X ∧
        (⟨2, 0, 0⟩ : Point ℝ).Y = (⟨2, 0, 1⟩ : Point ℝ).Y)) ∧
      perpendicularDistance Real.sqrt ⟨5, 6, 0⟩ ⟨2, 0, 0⟩ ⟨2, 0, 1⟩ =
        euclidean Real.sqrt ⟨5, 6, 0⟩ ⟨2, 0, 0⟩ ∧
      euclidean Real.sqrt ⟨5, 6, 0⟩ ⟨2, 0, 0⟩ =
        Real.sqrt (((⟨2, 0, 0⟩ : Point ℝ).X - (⟨5, 6, 0⟩ : Point ℝ).X) ^ 2 +
          ((⟨2, 0, 0⟩ : Point ℝ).Y - (⟨5, 6, 0⟩ : Point ℝ).Y) ^ 2) :=
  ⟨⟨rfl, rfl⟩, perpendicularDistance_degenerate Real.sqrt ⟨5, 6, 0⟩ ⟨2, 0, 0⟩ ⟨2, 0, 1⟩
    ⟨rfl, rfl⟩⟩

/-! ## The scan and the split index -/

/-- What the scan of a whole curve computes (for a square root with
`sqrt 0 = 0`): either no point is off the chord and the state stays `(0, 0)`,
or the curve splits around its first point of maximal distance, which is
neither the first nor the last point. -/
theorem scan_curve_spec [LinearOrderedField α] (sqrt : α → α) (hs : sqrt 0 = 0)
    (ps : List (Point α)) (h : 0 < ps.length) :
    (scan sqrt ps[0] ps[ps.length - 1] ps 0 (0, 0) = (0, 0) ∧
        ∀ p ∈ ps, perpendicularDistance sqrt p ps[0] ps[ps.length - 1] ≤ 0) ∨
      ∃ xs p ys, ps = xs ++ p :: ys ∧ xs ≠ [] ∧ ys ≠ [] ∧
        scan sqrt ps[0] ps[ps.length - 1] ps 0 (0, 0) =
          (xs.length, perpendicularDistance sqrt p ps[0] ps[ps.length - 1]) ∧
        (0 : α) < perpendicularDistance sqrt p ps[0] ps[ps.length - 1] ∧
        (∀ x ∈ xs, perpendicularDistance sqrt x ps[0] ps[ps.length - 1] <
          perpendicularDistance sqrt p ps[0] ps[ps.length - 1]) ∧
        ∀ y ∈ ys, perpendicularDistance sqrt y ps[0] ps[ps.length - 1] ≤
          perpendicularDistance sqrt p ps[0] ps[ps.length - 1] := by
  rcases scan_spec sqrt ps[0] ps[ps.length - 1] ps 0 (0, 0) with
    h1 | ⟨xs, p, ys, hps, hsc, hlt, hxs, hys⟩
  · left; exact h1
  · right
    have hfl := first_last_eq ps h
    refine ⟨xs, p, ys, hps, ?_, ?_, ?_, hlt, hxs, hys⟩
    · rintro rfl
      have h2 : ps.head? = some p := by rw [hps]; rfl
      have hp : ps[0] = p := Option.some.inj (hfl.1.symm.trans h2)
      rw [← hp, perpendicularDistance_start sqrt hs] at hlt
      exact lt_irrefl _ hlt
    · rintro rfl
      have h2 : ps.getLast? = some p := by rw [hps]; simp
      have hp : ps[ps.length - 1] = p := Option.some.inj (hfl.2.symm.trans h2)
      rw [← hp, perpendicularDistance_end sqrt hs] at hlt
      exact lt_irrefl _ hlt
    · rw [hsc, Nat.zero_add]

/-- C15 (split index never at a boundary): over exact real coordinates, for
every curve `P` of `n ≥ 3` points and every `epsilon` for which `P` is not
collapsed, the index at which `Simplify` splits, after the boundary adjustment,
is neither `0` nor the final position `n - 1`. -/
theorem splitIndex_interior (P : List (Point ℝ)) (epsilon : ℝ) (h : 2 < P.length)
    (hc : ¬ (scan Real.sqrt P[0] P[P.length - 1] P 0 (0, 0)).2 ≤ epsilon) :
    splitIndex (scan Real.sqrt P[0] P[P.length - 1] P 0 (0, 0)).1 P.length ≠ 0 ∧
      splitIndex (scan Real.sqrt P[0] P[P.length - 1] P 0 (0, 0)).1 P.length ≠
        P.length - 1 ∧
      Simplify Real.sqrt P epsilon =
        Simplify Real.sqrt (P.take (splitIndex
          (scan Real.sqrt P[0] P[P.length - 1] P 0 (0, 0)).1 P.length)) epsilon ++
        Simplify Real.sqrt (P.drop (splitIndex
          (scan Real.sqrt P[0] P[P.length - 1] P 0 (0, 0)).1 P.length)) epsilon := by
  have hS := Simplify_long Real.sqrt P epsilon h
  rw [if_neg hc] at hS
  refine ⟨?_, ?_, hS⟩
  · exact Nat.pos_iff_ne_zero.mp (split_pos_lt Real.sqrt P h).1
  · rcases scan_curve_spec Real.sqrt Real.sqrt_zero P (by omega) with
      ⟨h1, _⟩ | ⟨xs, p, ys, hps, hx, hy, hsc, _, _, _⟩
    · rw [h1]
      unfold splitIndex
      simp only [true_or, if_true]
      omega
    · have hlen : P.length = xs.length + (ys.length + 1) := by
        conv_lhs => rw [hps]
        simp
      have hxl := List.length_pos.mpr hx
      have hyl := List.length_pos.mpr hy
      rw [hsc]
      unfold splitIndex
      simp only
      split <;> omega

/-- Witness of C15 on the triangle `tri` at tolerance `0`: the split index
is `1`. -/
theorem splitIndex_interior_witness :
    2 < tri.length ∧
      ¬ (scan Real.sqrt tri[0] tri[tri.length - 1] tri 0 (0, 0)).2 ≤ 0 ∧
      splitIndex (scan Real.sqrt tri[0] tri[tri.length - 1] tri 0 (0, 0)).1 tri.length = 1 ∧
      splitIndex (scan Real.sqrt tri[0] tri[tri.length - 1] tri 0 (0, 0)).1 tri.length ≠ 0 ∧
      splitIndex (scan Real.sqrt tri[0] tri[tri.length - 1] tri 0 (0, 0)).1 tri.length ≠
        tri.length - 1 :=
  have hc : ¬ (scan Real.sqrt tri[0] tri[tri.length - 1] tri 0 (0, 0)).2 ≤ 0 := by
    rw [scan_tri]; norm_num
  have h := splitIndex_interior tri 0 (by decide) hc
  ⟨by decide, hc, by rw [scan_tri]; simp [splitIndex, tri], h.1, h.2.1⟩

/-- C16, as the claim states it, fails on the `float64` code: on the curve
`big` the distance of the middle point is a NaN (overflow), the test
`d > maxDist` skips it, and the loop ends with `maxDist = 0`, `index = 0`;
`maxDist` does not bound that distance (`NaN <= 0` is false), while in exact
arithmetic the maximum is `2^700`, at position `1`. -/
theorem scan_maximum_counterexample :
    2 < big.length ∧
    scan64 big[0] big[big.length - 1] big 0 (0, F64.fin 0) = (0, F64.fin 0) ∧
    perpendicularDistance64 big[1] big[0] big[big.length - 1] = F64.nan ∧
    F64.le (perpendicularDistance64 big[1] big[0] big[big.length - 1])
      (scan64 big[0] big[big.length - 1] big 0 (0, F64.fin 0)).2 = false ∧
    scan Real.sqrt bigReal[0] bigReal[bigReal.length - 1] bigReal 0 (0, 0) =
      (1, 2 ^ 700) := by
  refine ⟨by decide, scan64_big, perpendicularDistance64_big_1, ?_, scan_bigReal⟩
  rw [perpendicularDistance64_big_1]
  rfl

/-- C16, amended (maximum scan of the `float64` code): for every curve `P` of
at least three points, after the scan loop no distance compares greater than
`maxDist` (each is `<= maxDist` or a NaN) and `maxDist >= 0`; either the loop
state is still `(0, 0)`, or `maxDist > 0`; and when `maxDist > 0`, `index` is
a position of `P`, `maxDist` is the distance of `P[index]`, and the distance at
every earlier position is smaller than `maxDist` or a NaN. -/
theorem scan64_maximum (P : List (Point F64)) (h : 2 < P.length) :
    (∀ (i : Nat) (hi : i < P.length),
      F64.gt (perpendicularDistance64 P[i] P[0] P[P.length - 1])
        (scan64 P[0] P[P.length - 1] P 0 (0, F64.fin 0)).2 = false) ∧
    F64.le (F64.fin 0) (scan64 P[0] P[P.length - 1] P 0 (0, F64.fin 0)).2 = true ∧
    (scan64 P[0] P[P.length - 1] P 0 (0, F64.fin 0) = (0, F64.fin 0) ∨
      F64.gt (scan64 P[0] P[P.length - 1] P 0 (0, F64.fin 0)).2 (F64.fin 0) = true) ∧
    (F64.gt (scan64 P[0] P[P.length - 1] P 0 (0, F64.fin 0)).2 (F64.fin 0) = true →
      ∃ hk : (scan64 P[0] P[P.length - 1] P 0 (0, F64.fin 0)).1 < P.length,
        perpendicularDistance64
            P[(scan64 P[0] P[P.length - 1] P 0 (0, F64.fin 0)).1] P[0] P[P.length - 1] =
          (scan64 P[0] P[P.length - 1] P 0 (0, F64.fin 0)).2 ∧
        ∀ (j : Nat) (hj : j < P.length),
          j < (scan64 P[0] P[P.length - 1] P 0 (0, F64.fin 0)).1 →
          F64.le (scan64 P[0] P[P.length - 1] P 0 (0, F64.fin 0)).2
            (perpendicularDistance64 P[j] P[0] P[P.length - 1]) = false) := by
  have h00 : F64.le (F64.fin 0) (F64.fin 0) = true := by simp [F64.le]
  refine ⟨fun i hi => scan64_not_gt _ _ P 0 _ _ (List.getElem_mem hi), ?_, ?_, ?_⟩
  · rcases scan64_spec P[0] P[P.length - 1] P 0 (0, F64.fin 0) with
      ⟨h1, _⟩ | ⟨xs, p, ys, _, hres, hlt, _, _⟩
    · rw [h1]; exact h00
    · rw [hres]; exact le64_of_lt _ _ hlt
  · rcases scan64_spec P[0] P[P.length - 1] P 0 (0, F64.fin 0) with
      ⟨h1, _⟩ | ⟨xs, p, ys, _, hres, hlt, _, _⟩
    · left; exact h1
    · right; rw [hres]; exact hlt
  · intro hpos
    rcases scan64_spec P[0] P[P.length - 1] P 0 (0, F64.fin 0) with
      ⟨h1, _⟩ | ⟨xs, p, ys, hps, hres, _, hxs, _⟩
    · rw [h1] at hpos
      rw [F64.gt, lt64_irrefl] at hpos
      exact absurd hpos (by decide)
    · have hget : P[xs.length]? = some p := by
        rw [hps]; exact getElem?_append_cons_length xs ys p
      obtain ⟨hi, hp⟩ := List.getElem?_eq_some_iff.mp hget
      have hk : (scan64 P[0] P[P.length - 1] P 0 (0, F64.fin 0)).1 = xs.length := by
        rw [hres]
        exact Nat.zero_add _
      refine ⟨by rw [hk]; exact hi, ?_, ?_⟩
      · simp only [hk, hp]
        rw [hres]
      · intro j hj hlt
        rw [hk] at hlt
        have hgj : P[j]? = some xs[j] := by
          rw [hps, List.getElem?_append_left hlt, List.getElem?_eq_getElem]
        have hpj : P[j] = xs[j] := (List.getElem?_eq_some_iff.mp hgj).2
        rw [hpj, hres]
        exact hxs _ (List.getElem_mem hlt)

/-- Witness of the amended C16 on `tenths`: the maximum is `2^-56`, at
position `0`. -/
theorem scan64_maximum_witness :
    2 < tenths.length ∧
      scan64 tenths[0] tenths[tenths.length - 1] tenths 0 (0, F64.fin 0) =
        (0, F64.fin (1 / 2 ^ 56)) ∧
      (∀ (i : Nat) (hi : i < tenths.length),
        F64.gt (perpendicularDistance64 tenths[i] tenths[0] tenths[tenths.length - 1])
          (scan64 tenths[0] tenths[tenths.length - 1] tenths 0 (0, F64.fin 0)).2 = false) :=
  ⟨by decide, scan64_tenths, (scan64_maximum tenths (by decide)).1⟩

/-- The maximum scan in exact arithmetic: over exact real coordinates, for
every curve `P` of at least three points, after the scan loop `maxDist` is the maximum of
`perpendicularDistance P[i] first last` over all positions `i` (endpoints
included): it bounds every distance and is attained; and when it is positive,
`index` is the smallest position attaining it. -/
theorem scan_maximum (P : List (Point ℝ)) (h : 2 < P.length) :
    (∀ (i : Nat) (hi : i < P.length),
      perpendicularDistance Real.sqrt P[i] P[0] P[P.length - 1] ≤
        (scan Real.sqrt P[0] P[P.length - 1] P 0 (0, 0)).2) ∧
    (∃ (i : Nat) (hi : i < P.length),
      perpendicularDistance Real.sqrt P[i] P[0] P[P.length - 1] =
        (scan Real.sqrt P[0] P[P.length - 1] P 0 (0, 0)).2) ∧
    ((0 : ℝ) < (scan Real.sqrt P[0] P[P.length - 1] P 0 (0, 0)).2 →
      ∃ hk : (scan Real.sqrt P[0] P[P.length - 1] P 0 (0, 0)).1 < P.length,
        perpendicularDistance Real.sqrt
            P[(scan Real.sqrt P[0] P[P.length - 1] P 0 (0, 0)).1] P[0] P[P.length - 1] =
          (scan Real.sqrt P[0] P[P.length - 1] P 0 (0, 0)).2 ∧
        ∀ (j : Nat) (hj : j < P.length),
          j < (scan Real.sqrt P[0] P[P.length - 1] P 0 (0, 0)).1 →
          perpendicularDistance Real.sqrt P[j] P[0] P[P.length - 1] <
            (scan Real.sqrt P[0] P[P.length - 1] P 0 (0, 0)).2) := by
  have hge := scan_snd_ge Real.sqrt P[0] P[P.length - 1] P 0 (0, 0)
  refine ⟨fun i hi => hge.2 _ (List.getElem_mem hi), ?_, ?_⟩
  · rcases scan_curve_spec Real.sqrt Real.sqrt_zero P (by omega) with
      ⟨h1, _⟩ | ⟨xs, p, ys, hps, _, _, hsc, _, _, _⟩
    · refine ⟨0, by omega, ?_⟩
      rw [h1, perpendicularDistance_start Real.sqrt Real.sqrt_zero]
    · have hlen : P.length = xs.length + (ys.length + 1) := by
        conv_lhs => rw [hps]
        simp
      have hget : P[xs.length]? = some p := by
        rw [hps]; exact getElem?_append_cons_length xs ys p
      obtain ⟨hi, hp⟩ := List.getElem?_eq_some_iff.mp hget
      exact ⟨xs.length, hi, by rw [hsc, hp]⟩
  · intro hpos
    rcases scan_curve_spec Real.sqrt Real.sqrt_zero P (by omega) with
      ⟨h1, _⟩ | ⟨xs, p, ys, hps, _, _, hsc, _, hxs, _⟩
    · rw [h1] at hpos
      exact absurd hpos (lt_irrefl _)
    · have hget : P[xs.length]? = some p := by
        rw [hps]; exact getElem?_append_cons_length xs ys p
      obtain ⟨hi, hp⟩ := List.getElem?_eq_some_iff.mp hget
      have hk : (scan Real.sqrt P[0] P[P.length - 1] P 0 (0, 0)).1 = xs.length := by
        rw [hsc]
      refine ⟨by rw [hk]; exact hi, ?_, ?_⟩
      · simp only [hk, hp]
        rw [hsc]
      · intro j hj hlt
        rw [hk] at hlt
        have hgj : P[j]? = some xs[j] := by
          rw [hps, List.getElem?_append_left hlt, List.getElem?_eq_getElem]
        have hpj : P[j] = xs[j] := (List.getElem?_eq_some_iff.mp hgj).2
        rw [hpj, hsc]
        exact hxs _ (List.getElem_mem hlt)

/-- The maximum scan on the triangle `tri`: the maximum is `1`, at position
`1`. -/
theorem scan_maximum_witness :
    2 < tri.length ∧
      scan Real.sqrt tri[0] tri[tri.length - 1] tri 0 (0, 0) = (1, 1) ∧
      (∀ (i : Nat) (hi : i < tri.length),
        perpendicularDistance Real.sqrt tri[i] tri[0] tri[tri.length - 1] ≤
          (scan Real.sqrt tri[0] tri[tri.length - 1] tri 0 (0, 0)).2) :=
  ⟨by decide, scan_tri, (scan_maximum tri (by decide)).1⟩

/-! ## Distance to the line -/

/-- The squared length of the chord direction is positive when the two ends
differ in a coordinate. -/
theorem chord_sq_pos [LinearOrderedField α] (start end_ : Point α)
    (hne : ¬ (start.X = end_.X ∧ start.Y = end_.Y)) :
    0 < (end_.Y - start.Y) * (end_.Y - start.Y) +
      (start.X - end_.X) * (start.X - end_.X) := by
  have h1 := mul_self_nonneg (end_.Y - start.Y)
  have h2 := mul_self_nonneg (start.X - end_.X)
  rcases lt_or_eq_of_le (add_nonneg h1 h2) with h | h
  · exact h
  · exfalso
    apply hne
    have hA : (end_.Y - start.Y) * (end_.Y - start.Y) = 0 := by linarith
    have hB : (start.X - end_.X) * (start.X - end_.X) = 0 := by linarith
    have hA2 := mul_self_eq_zero.mp hA
    have hB2 := mul_self_eq_zero.mp hB
    exact ⟨by linarith, by linarith⟩

/-- Lagrange identity behind the Cauchy–Schwarz bound: for a point
`(qx, qy) = start + t * (end - start)` of the line, the squared numerator of
`perpendicularDistance` is the squared distance to that point times the squared
chord length, minus a square. -/
theorem line_lagrange (px py sx sy ex ey t : ℝ) :
    ((sx + t * (ex - sx) - px) * (sx + t * (ex - sx) - px) +
        (sy + t * (ey - sy) - py) * (sy + t * (ey - sy) - py)) *
      ((ey - sy) * (ey - sy) + (sx - ex) * (sx - ex)) -
      ((ey - sy) * px + (sx - ex) * py + (ex * sy - sx * ey)) ^ 2 =
    ((ey - sy) * (sy + t * (ey - sy) - py) - (sx - ex) * (sx + t * (ex - sx) - px)) ^ 2 := by
  ring

/-- At the foot of the perpendicular the squared distance is the squared
numerator over the squared chord length. -/
theorem foot_sq (px py sx sy ex ey : ℝ)
    (hD : (ey - sy) * (ey - sy) + (sx - ex) * (sx - ex) ≠ 0) :
    (sx + ((px - sx) * (ex - sx) + (py - sy) * (ey - sy)) /
          ((ey - sy) * (ey - sy) + (sx - ex) * (sx - ex)) * (ex - sx) - px) *
      (sx + ((px - sx) * (ex - sx) + (py - sy) * (ey - sy)) /
          ((ey - sy) * (ey - sy) + (sx - ex) * (sx - ex)) * (ex - sx) - px) +
    (sy + ((px - sx) * (ex - sx) + (py - sy) * (ey - sy)) /
          ((ey - sy) * (ey - sy) + (sx - ex) * (sx - ex)) * (ey - sy) - py) *
      (sy + ((px - sx) * (ex - sx) + (py - sy) * (ey - sy)) /
          ((ey - sy) * (ey - sy) + (sx - ex) * (sx - ex)) * (ey - sy) - py) =
    ((ey - sy) * px + (sx - ex) * py + (ex * sy - sx * ey)) ^ 2 /
      ((ey - sy) * (ey - sy) + (sx - ex) * (sx - ex)) := by
  field_simp
  ring

/-- C11 (shortest distance to the infinite line): over exact real coordinates,
for all points `p`, `start`, `end_` with `start` and `end_` differing in a
coordinate, `perpendicularDistance p start end_` is non-negative, is at most
`euclidean p q` for every point `q = start + t * (end_ - start)` of the line
(any real `t`, also beyond the segment), and equals `euclidean p q` for some
such `q`. -/
theorem perpendicularDistance_shortest (p start end_ : Point ℝ)
    (hne : ¬ (start.X = end_.X ∧ start.Y = end_.Y)) :
    0 ≤ perpendicularDistance Real.sqrt p start end_ ∧
    (∀ (t : ℝ) (q : Point ℝ),
      q.X = start.X + t * (end_.X - start.X) →
      q.Y = start.Y + t * (end_.Y - start.Y) →
      perpendicularDistance Real.sqrt p start end_ ≤ euclidean Real.sqrt p q) ∧
    ∃ (t : ℝ) (q : Point ℝ),
      q.X = start.X + t * (end_.X - start.X) ∧
      q.Y = start.Y + t * (end_.Y - start.Y) ∧
      perpendicularDistance Real.sqrt p start end_ = euclidean Real.sqrt p q := by
  have hD := chord_sq_pos start end_ hne
  have hs := Real.sqrt_pos.mpr hD
  unfold perpendicularDistance
  rw [if_neg hne]
  refine ⟨div_nonneg (abs_nonneg _) (Real.sqrt_nonneg _), ?_, ?_⟩
  · intro t q hx hy
    unfold euclidean
    simp only [hx, hy]
    rw [div_le_iff₀ hs, ← Real.sqrt_mul (add_nonneg (mul_self_nonneg _) (mul_self_nonneg _))]
    apply Real.abs_le_sqrt
    have hL := line_lagrange p.X p.Y start.X start.Y end_.X end_.Y t
    have hsq := sq_nonneg ((end_.Y - start.Y) * (start.Y + t * (end_.Y - start.Y) - p.Y) -
      (start.X - end_.X) * (start.X + t * (end_.X - start.X) - p.X))
    linarith
  · refine ⟨((p.X - start.X) * (end_.X - start.X) + (p.Y - start.Y) * (end_.Y - start.Y)) /
        ((end_.Y - start.Y) * (end_.Y - start.Y) + (start.X - end_.X) * (start.X - end_.X)),
      ⟨start.X + ((p.X - start.X) * (end_.X - start.X) +
          (p.Y - start.Y) * (end_.Y - start.Y)) /
        ((end_.Y - start.Y) * (end_.Y - start.Y) + (start.X - end_.X) * (start.X - end_.X)) *
          (end_.X - start.X),
       start.Y + ((p.X - start.X) * (end_.X - start.X) +
          (p.Y - start.Y) * (end_.Y - start.Y)) /
        ((end_.Y - start.Y) * (end_.Y - start.Y) + (start.X - end_.X) * (start.X - end_.X)) *
          (end_.Y - start.Y), 0⟩, rfl, rfl, ?_⟩
    unfold euclidean
    simp only
    rw [foot_sq p.X p.Y start.X start.Y end_.X end_.Y (ne_of_gt hD),
      Real.sqrt_div (sq_nonneg _), Real.sqrt_sq_eq_abs]


/-- Witness of C11 on the test case `p = (5, 6)`,
`start = (0, -1.3333333333333333)`, `end = (2, 0)`. -/
theorem perpendicularDistance_shortest_witness :
    ¬ ((⟨0, -1.3333333333333333, 0⟩ : Point ℝ).X = (⟨2, 0, 0⟩ : Point ℝ).X ∧
        (⟨0, -1.3333333333333333, 0⟩ : Point ℝ).Y = (⟨2, 0, 0⟩ : Point ℝ).Y) ∧
    0 ≤ perpendicularDistance Real.sqrt ⟨5, 6, 0⟩ ⟨0, -1.3333333333333333, 0⟩ ⟨2, 0, 0⟩ ∧
    (∀ (t : ℝ) (q : Point ℝ),
      q.X = (⟨0, -1.3333333333333333, 0⟩ : Point ℝ).X +
        t * ((⟨2, 0, 0⟩ : Point ℝ).X - (⟨0, -1.3333333333333333, 0⟩ : Point ℝ).X) →
      q.Y = (⟨0, -1.3333333333333333, 0⟩ : Point ℝ).Y +
        t * ((⟨2, 0, 0⟩ : Point ℝ).Y - (⟨0, -1.3333333333333333, 0⟩ : Point ℝ).Y) →
      perpendicularDistance Real.sqrt ⟨5, 6, 0⟩ ⟨0, -1.3333333333333333, 0⟩ ⟨2, 0, 0⟩ ≤
        euclidean Real.sqrt ⟨5, 6, 0⟩ q) ∧
    ∃ (t : ℝ) (q : Point ℝ),
      q.X = (⟨0, -1.3333333333333333, 0⟩ : Point ℝ).X +
        t * ((⟨2, 0, 0⟩ : Point ℝ).X - (⟨0, -1.3333333333333333, 0⟩ : Point ℝ).X) ∧
      q.Y = (⟨0, -1.3333333333333333, 0⟩ : Point ℝ).Y +
        t * ((⟨2, 0, 0⟩ : Point ℝ).Y - (⟨0, -1.3333333333333333, 0⟩ : Point ℝ).Y) ∧
      perpendicularDistance Real.sqrt ⟨5, 6, 0⟩ ⟨0, -1.3333333333333333, 0⟩ ⟨2, 0, 0⟩ =
        euclidean Real.sqrt ⟨5, 6, 0⟩ q :=
  ⟨by norm_num, perpendicularDistance_shortest ⟨5, 6, 0⟩ ⟨0, -1.3333333333333333, 0⟩
    ⟨2, 0, 0⟩ (by norm_num)⟩

/-! ## The test case "small points" -/

/-- Distances to one chord whose ends differ compare like their numerators
`|A*x + B*y + C|`. -/
theorem perpendicularDistance_lt_of_abs_lt (x y start end_ : Point ℝ)
    (hne : ¬ (start.X = end_.X ∧ start.Y = end_.Y))
    (h : |(end_.Y - start.Y) * x.X + (start.X - end_.X) * x.Y +
          (end_.X * start.Y - start.X * end_.Y)| <
        |(end_.Y - start.Y) * y.X + (start.X - end_.X) * y.Y +
          (end_.X * start.Y - start.X * end_.Y)|) :
    perpendicularDistance Real.sqrt x start end_ <
      perpendicularDistance Real.sqrt y start end_ := by
  unfold perpendicularDistance
  rw [if_neg hne, if_neg hne]
  exact div_lt_div_of_pos_right h (Real.sqrt_pos.mpr (chord_sq_pos start end_ hne))

/-- Distances to one chord whose ends differ are ordered like their numerators
`|A*x + B*y + C|`. -/
theorem perpendicularDistance_le_of_abs_le (x y start end_ : Point ℝ)
    (hne : ¬ (start.X = end_.X ∧ start.Y = end_.Y))
    (h : |(end_.Y - start.Y) * x.X + (start.X - end_.X) * x.Y +
          (end_.X * start.Y - start.X * end_.Y)| ≤
        |(end_.Y - start.Y) * y.X + (start.X - end_.X) * y.Y +
          (end_.X * start.Y - start.X * end_.Y)|) :
    perpendicularDistance Real.sqrt x start end_ ≤
      perpendicularDistance Real.sqrt y start end_ := by
  unfold perpendicularDistance
  rw [if_neg hne, if_neg hne]
  exact div_le_div_of_nonneg_right h (Real.sqrt_nonneg _)

/-- The point `(0.4, 0.8)` of `small` is further than `0.1` from the chord
`(0, 0)`–`(0.5, 0.1)`. -/
theorem small_peak_far :
    (0.1 : ℝ) < perpendicularDistance Real.sqrt ⟨0.4, 0.8, 0⟩ ⟨0.0, 0.0, 0⟩ ⟨0.5, 0.1, 0⟩ := by
  have hne : ¬ ((⟨0.0, 0.0, 0⟩ : Point ℝ).X = (⟨0.5, 0.1, 0⟩ : Point ℝ).X ∧
      (⟨0.0, 0.0, 0⟩ : Point ℝ).Y = (⟨0.5, 0.1, 0⟩ : Point ℝ).Y) := by norm_num
  have hpos := Real.sqrt_pos.mpr (chord_sq_pos _ _ hne)
  have hle : Real.sqrt (((⟨0.5, 0.1, 0⟩ : Point ℝ).Y - (⟨0.0, 0.0, 0⟩ : Point ℝ).Y) *
        ((⟨0.5, 0.1, 0⟩ : Point ℝ).Y - (⟨0.0, 0.0, 0⟩ : Point ℝ).Y) +
      ((⟨0.0, 0.0, 0⟩ : Point ℝ).X - (⟨0.5, 0.1, 0⟩ : Point ℝ).X) *
        ((⟨0.0, 0.0, 0⟩ : Point ℝ).X - (⟨0.5, 0.1, 0⟩ : Point ℝ).X)) ≤ 1 :=
    Real.sqrt_le_one.mpr (by norm_num)
  unfold perpendicularDistance
  rw [if_neg hne, lt_div_iff₀ hpos]
  have habs : |((⟨0.5, 0.1, 0⟩ : Point ℝ).Y - (⟨0.0, 0.0, 0⟩ : Point ℝ).Y) *
        (⟨0.4, 0.8, 0⟩ : Point ℝ).X +
      ((⟨0.0, 0.0, 0⟩ : Point ℝ).X - (⟨0.5, 0.1, 0⟩ : Point ℝ).X) *
        (⟨0.4, 0.8, 0⟩ : Point ℝ).Y +
      ((⟨0.5, 0.1, 0⟩ : Point ℝ).X * (⟨0.0, 0.0, 0⟩ : Point ℝ).Y -
        (⟨0.0, 0.0, 0⟩ : Point ℝ).X * (⟨0.5, 0.1, 0⟩ : Point ℝ).Y)| = 0.36 := by
    norm_num [abs_of_neg]
  rw [habs]
  linarith

/-- The scan of `small` finds the point `(0.4, 0.8)` at position `4`. -/
theorem scan_small :
    scan Real.sqrt small[0] small[small.length - 1] small 0 (0, 0) =
      (4, perpendicularDistance Real.sqrt ⟨0.4, 0.8, 0⟩ ⟨0.0, 0.0, 0⟩ ⟨0.5, 0.1, 0⟩) := by
  have hne : ¬ ((⟨0.0, 0.0, 0⟩ : Point ℝ).X = (⟨0.5, 0.1, 0⟩ : Point ℝ).X ∧
      (⟨0.0, 0.0, 0⟩ : Point ℝ).Y = (⟨0.5, 0.1, 0⟩ : Point ℝ).Y) := by norm_num
  exact scan_append_cons Real.sqrt ⟨0.0, 0.0, 0⟩ ⟨0.5, 0.1, 0⟩
    [⟨0.0, 0.0, 0⟩, ⟨0.1, 0.2, 0⟩, ⟨0.2, 0.3, 0⟩, ⟨0.3, 0.4, 0⟩] [⟨0.5, 0.1, 0⟩]
    ⟨0.4, 0.8, 0⟩ 0 (0, 0)
    (lt_trans (by norm_num) small_peak_far)
    (fun x hx => by
      apply perpendicularDistance_lt_of_abs_lt _ _ _ _ hne
      simp only [List.mem_cons, List.mem_singleton, List.not_mem_nil, or_false] at hx
      rcases hx with rfl | rfl | rfl | rfl <;> norm_num [abs_lt, lt_abs])
    (fun y hy => by
      apply perpendicularDistance_le_of_abs_le _ _ _ _ hne
      simp only [List.mem_cons, List.mem_singleton, List.not_mem_nil, or_false] at hy
      rcases hy with rfl
      norm_num)

/-- The left part of `small` collapses at tolerance `0.1`: its two inner
points are at distance `0.04` and `0.02` from the chord `(0, 0)`–`(0.3, 0.4)`. -/
theorem Simplify_small_left :
    Simplify Real.sqrt
        [⟨0.0, 0.0, 0⟩, ⟨0.1, 0.2, 0⟩, ⟨0.2, 0.3, 0⟩, ⟨0.3, 0.4, 0⟩] 0.1 =
      [⟨0.0, 0.0, 0⟩, ⟨0.3, 0.4, 0⟩] := by
  have hs : Real.sqrt 4 = 2 := by
    rw [show (4 : ℝ) = 2 * 2 by norm_num]
    exact Real.sqrt_mul_self (by norm_num)
  rw [Simplify_collapse_of_le Real.sqrt 0.1 (by norm_num) _ (by decide)]
  · rfl
  · intro x hx
    simp only [List.mem_cons, List.mem_singleton, List.not_mem_nil, or_false] at hx
    rcases hx with rfl | rfl | rfl | rfl <;>
      · simp only [perpendicularDistance, List.getElem_cons_zero, List.length_cons,
          List.length_nil, List.getElem_cons_succ]
        norm_num [hs, abs_of_neg]

/-- The test case "small points": at tolerance `0.1` the curve `small` is
reduced to four points. -/
theorem Simplify_small :
    Simplify Real.sqrt small 0.1 =
      [⟨0.0, 0.0, 0⟩, ⟨0.3, 0.4, 0⟩, ⟨0.4, 0.8, 0⟩, ⟨0.5, 0.1, 0⟩] := by
  have h := Simplify_long Real.sqrt small 0.1 (by decide)
  rw [scan_small, if_neg (not_le.mpr small_peak_far)] at h
  rw [h]
  have hk : splitIndex (4, perpendicularDistance Real.sqrt
      (⟨0.4, 0.8, 0⟩ : Point ℝ) ⟨0.0, 0.0, 0⟩ ⟨0.5, 0.1, 0⟩).1 small.length = 4 := by
    simp [splitIndex, small]
  rw [hk]
  have ht : small.take 4 =
      [⟨0.0, 0.0, 0⟩, ⟨0.1, 0.2, 0⟩, ⟨0.2, 0.3, 0⟩, ⟨0.3, 0.4, 0⟩] := rfl
  have hd : small.drop 4 = [⟨0.4, 0.8, 0⟩, ⟨0.5, 0.1, 0⟩] := rfl
  rw [ht, hd, Simplify_small_left, Simplify_short Real.sqrt _ 0.1 (by decide)]
  rfl

/-- C14 (split point and its predecessor are both kept): for every curve `P`
of at least three points and every tolerance `e` (in particular `e ≥ 0`) that
the maximum distance to the chord exceeds, with `k` the split index, the
output is `Simplify P[0..k) e ++ Simplify P[k..] e`; the left part ends with
`P[k-1]`, the right part starts with `P[k]`, so the output contains `P[k-1]`
immediately followed by `P[k]`. -/
theorem Simplify_split_adjacent [LinearOrderedField α] (sqrt : α → α)
    (P : List (Point α)) (e : α) (h : 2 < P.length)
    (hc : ¬ (scan sqrt P[0] P[P.length - 1] P 0 (0, 0)).2 ≤ e) :
    ∀ k : Nat, k = splitIndex (scan sqrt P[0] P[P.length - 1] P 0 (0, 0)).1 P.length →
      ∃ a b A B, P[k - 1]? = some a ∧ P[k]? = some b ∧
        Simplify sqrt (P.take k) e = A ++ [a] ∧
        Simplify sqrt (P.drop k) e = b :: B ∧
        Simplify sqrt P e = A ++ a :: b :: B := by
  intro k hk
  have hr := split_pos_lt sqrt P h
  rw [← hk] at hr
  have hS := Simplify_long sqrt P e h
  rw [if_neg hc, ← hk] at hS
  have hlast : (Simplify sqrt (P.take k) e).getLast? = some P[k - 1] := by
    rw [(Simplify_head_getLast sqrt (P.take k) e).2, List.getLast?_eq_getElem?,
      List.length_take, Nat.min_eq_left (le_of_lt hr.2),
      List.getElem?_take_of_lt (by omega), List.getElem?_eq_getElem]
  have hhead : (Simplify sqrt (P.drop k) e).head? = some P[k] := by
    rw [(Simplify_head_getLast sqrt (P.drop k) e).1, List.head?_eq_getElem?,
      List.getElem?_drop, Nat.add_zero, List.getElem?_eq_getElem]
  obtain ⟨A, hA⟩ := List.getLast?_eq_some_iff.mp hlast
  obtain ⟨B, hB⟩ := List.head?_eq_some_iff.mp hhead
  refine ⟨P[k - 1], P[k], A, B, List.getElem?_eq_getElem _, List.getElem?_eq_getElem _,
    hA, hB, ?_⟩
  rw [hS, hA, hB]
  simp

/-- Witness of C14 on the test case "small points": the split index is `4`
and the output keeps `(0.3, 0.4)` immediately followed by `(0.4, 0.8)`. -/
theorem Simplify_split_adjacent_witness :
    2 < small.length ∧
    ¬ (scan Real.sqrt small[0] small[small.length - 1] small 0 (0, 0)).2 ≤ 0.1 ∧
    Simplify Real.sqrt small 0.1 =
      [⟨0.0, 0.0, 0⟩, ⟨0.3, 0.4, 0⟩, ⟨0.4, 0.8, 0⟩, ⟨0.5, 0.1, 0⟩] ∧
    ∃ a b A B, small[4 - 1]? = some a ∧ small[4]? = some b ∧
      Simplify Real.sqrt (small.take 4) 0.1 = A ++ [a] ∧
      Simplify Real.sqrt (small.drop 4) 0.1 = b :: B ∧
      Simplify Real.sqrt small 0.1 = A ++ a :: b :: B :=
  have hc : ¬ (scan Real.sqrt small[0] small[small.length - 1] small 0 (0, 0)).2 ≤ 0.1 := by
    rw [scan_small]
    exact not_le.mpr small_peak_far
  ⟨by decide, hc, Simplify_small,
    Simplify_split_adjacent Real.sqrt small 0.1 (by decide) hc 4
      (by rw [scan_small]; simp [splitIndex, small])⟩

/-! ## In-place simplification on a backing array -/

section InPlace

variable [LinearOrderedField α] (sqrt : α → α) (epsilon : α)

theorem SimplifyInPlace_short (arr : List (Point α)) (lo len : Nat) (h : len ≤ 2) :
    SimplifyInPlace sqrt epsilon arr lo len = some (arr, len) := by
  rw [SimplifyInPlace]
  simp [h]

theorem SimplifyInPlace_long (arr : List (Point α)) (lo len : Nat) (h : 2 < len)
    (first last : Point α) (hf : arr[lo]? = some first)
    (hl : arr[lo + len - 1]? = some last) :
    SimplifyInPlace sqrt epsilon arr lo len =
      if (scan sqrt first last ((arr.drop lo).take len) 0 (0, 0)).2 ≤ epsilon then
        if lo + 2 ≤ arr.length then
          some ((arr.set lo first).set (lo + 1) last, 2)
        else none
      else
        match SimplifyInPlace sqrt epsilon arr lo
          (splitIndex (scan sqrt first last ((arr.drop lo).take len) 0 (0, 0)).1 len) with
        | none => none
        | some (arr1, n1) =>
          match SimplifyInPlace sqrt epsilon arr1
            (lo + splitIndex (scan sqrt first last ((arr.drop lo).take len) 0 (0, 0)).1 len)
            (len - splitIndex (scan sqrt first last ((arr.drop lo).take len) 0 (0, 0)).1
              len) with
          | none => none
          | some (arr2, n2) =>
            if lo + n1 + n2 ≤ arr2.length then
              some (arr2.take (lo + n1) ++
                (arr2.drop (lo + splitIndex
                  (scan sqrt first last ((arr.drop lo).take len) 0 (0, 0)).1 len)).take n2 ++
                arr2.drop (lo + n1 + n2), n1 + n2)
            else none := by
  rw [SimplifyInPlace]
  simp only [Nat.not_le.mpr h, dite_false, hf, hl]

/-- Reading cell `i` of the window `win` of `pre ++ win ++ post`. -/
theorem window_getElem? {β : Type} (pre win post : List β) (i : Nat) (hi : i < win.length) :
    (pre ++ win ++ post)[pre.length + i]? = some win[i] := by
  rw [List.append_assoc, List.getElem?_append_right (Nat.le_add_right _ _),
    Nat.add_sub_cancel_left, List.getElem?_append_left hi, List.getElem?_eq_getElem]

/-- The contents of the window `win` of `pre ++ win ++ post`. -/
theorem window_contents {β : Type} (pre win post : List β) :
    ((pre ++ win ++ post).drop pre.length).take win.length = win := by
  rw [List.append_assoc, List.drop_left' rfl]
  exact List.take_left' rfl

/-- Moving the right result down to follow the left result: the array
`pre ++ (sl ++ jl) ++ (sr ++ jr) ++ post` becomes `pre ++ (sl ++ sr) ++ …`
with the same cells before and after the window. -/
theorem move_down {β : Type} (pre sl jl sr jr post : List β) :
    (pre ++ (sl ++ jl) ++ (sr ++ jr) ++ post).take (pre.length + sl.length) ++
        ((pre ++ (sl ++ jl) ++ (sr ++ jr) ++ post).drop
          (pre.length + (sl.length + jl.length))).take sr.length ++
        (pre ++ (sl ++ jl) ++ (sr ++ jr) ++ post).drop
          (pre.length + sl.length + sr.length) =
      pre ++ ((sl ++ sr) ++ (jl ++ sr ++ jr).drop sr.length) ++ post := by
  have e1 : pre ++ (sl ++ jl) ++ (sr ++ jr) ++ post =
      (pre ++ sl) ++ ((jl ++ sr ++ jr) ++ post) := by
    simp only [List.append_assoc]
  have e2 : pre ++ (sl ++ jl) ++ (sr ++ jr) ++ post =
      (pre ++ sl ++ jl) ++ (sr ++ (jr ++ post)) := by
    simp only [List.append_assoc]
  have h1 : (pre ++ (sl ++ jl) ++ (sr ++ jr) ++ post).take (pre.length + sl.length) =
      pre ++ sl := by
    rw [e1]
    exact List.take_left' (by simp)
  have h2 : ((pre ++ (sl ++ jl) ++ (sr ++ jr) ++ post).drop
      (pre.length + (sl.length + jl.length))).take sr.length = sr := by
    rw [e2, List.drop_left' (by simp only [List.length_append]; omega)]
    exact List.take_left' rfl
  have h3 : (pre ++ (sl ++ jl) ++ (sr ++ jr) ++ post).drop
      (pre.length + sl.length + sr.length) = (jl ++ sr ++ jr).drop sr.length ++ post := by
    rw [e1, ← List.length_append, List.drop_append,
      List.drop_append_of_le_length (by simp only [List.length_append]; omega)]
  rw [h1, h2, h3]
  simp only [List.append_assoc]

/-- The in-place version on the window `win` of the array `pre ++ win ++ post`
leaves `pre` and `post` alone and puts the result of the pure `Simplify` at the
start of the window. -/
theorem SimplifyInPlace_window (win : List (Point α)) :
    ∀ pre post : List (Point α), ∃ junk : List (Point α),
      (Simplify sqrt win epsilon).length + junk.length = win.length ∧
      SimplifyInPlace sqrt epsilon (pre ++ win ++ post) pre.length win.length =
        some (pre ++ (Simplify sqrt win epsilon ++ junk) ++ post,
          (Simplify sqrt win epsilon).length) := by
  induction win using Simplify_induct sqrt epsilon with
  | short ps h =>
    intro pre post
    refine ⟨[], ?_, ?_⟩
    · rw [Simplify_short sqrt ps epsilon h]; rfl
    · rw [Simplify_short sqrt ps epsilon h, SimplifyInPlace_short sqrt epsilon _ _ _ h,
        List.append_nil]
  | collapse ps h hc hS =>
    intro pre post
    obtain ⟨a, b, rest, rfl⟩ : ∃ a b rest, ps = a :: b :: rest := by
      match ps, h with
      | a :: b :: c :: rest, _ => exact ⟨a, b, c :: rest, rfl⟩
    have hf : (pre ++ (a :: b :: rest) ++ post)[pre.length]? =
        some (a :: b :: rest)[0] :=
      window_getElem? pre (a :: b :: rest) post 0 (by omega)
    have hl : (pre ++ (a :: b :: rest) ++ post)[pre.length + (a :: b :: rest).length - 1]? =
        some (a :: b :: rest)[(a :: b :: rest).length - 1] := by
      rw [Nat.add_sub_assoc (by omega)]
      exact window_getElem? pre (a :: b :: rest) post _ (by omega)
    have hwin := window_contents pre (a :: b :: rest) post
    rw [SimplifyInPlace_long sqrt epsilon _ _ _ h _ _ hf hl, hwin, if_pos hc, hS,
      if_pos (by simp only [List.length_append, List.length_cons]; omega)]
    refine ⟨rest, by simp only [List.length_cons, List.length_nil]; omega, ?_⟩
    congr 1
    congr 1
    simp
  | split ps h k hk hk0 hkn hc hS ihl ihr =>
    intro pre post
    have hf : (pre ++ ps ++ post)[pre.length]? = some ps[0] :=
      window_getElem? pre ps post 0 (by omega)
    have hl : (pre ++ ps ++ post)[pre.length + ps.length - 1]? =
        some ps[ps.length - 1] := by
      rw [Nat.add_sub_assoc (by omega)]
      exact window_getElem? pre ps post _ (by omega)
    have hwin := window_contents pre ps post
    have hlenL : (ps.take k).length = k := by rw [List.length_take]; omega
    have hlenR : (ps.drop k).length = ps.length - k := List.length_drop k ps
    obtain ⟨jl, hjl, hL⟩ := ihl pre (ps.drop k ++ post)
    obtain ⟨jr, hjr, hR⟩ := ihr (pre ++ (Simplify sqrt (ps.take k) epsilon ++ jl)) post
    have harr : pre ++ ps ++ post = pre ++ ps.take k ++ (ps.drop k ++ post) := by
      conv_lhs => rw [← List.take_append_drop k ps]
      simp only [List.append_assoc]
    have harr1 : pre ++ (Simplify sqrt (ps.take k) epsilon ++ jl) ++ (ps.drop k ++ post) =
        pre ++ (Simplify sqrt (ps.take k) epsilon ++ jl) ++ ps.drop k ++ post := by
      simp only [List.append_assoc]
    have hlo : (pre ++ (Simplify sqrt (ps.take k) epsilon ++ jl)).length = pre.length + k := by
      rw [List.length_append, List.length_append]
      omega
    rw [hlenL] at hL hjl
    rw [hlenR, hlo] at hR
    rw [hlenR] at hjr
    rw [SimplifyInPlace_long sqrt epsilon _ _ _ h _ _ hf hl, hwin, if_neg hc, ← hk,
      harr, hL]
    simp only
    rw [harr1, hR]
    simp only
    have hcap : pre.length + (Simplify sqrt (ps.take k) epsilon).length +
        (Simplify sqrt (ps.drop k) epsilon).length ≤
        (pre ++ (Simplify sqrt (ps.take k) epsilon ++ jl) ++
          (Simplify sqrt (ps.drop k) epsilon ++ jr) ++ post).length := by
      simp only [List.length_append]
      omega
    rw [if_pos hcap]
    have hkk : pre.length + k = pre.length +
        ((Simplify sqrt (ps.take k) epsilon).length + jl.length) := by omega
    rw [hkk, move_down, hS, List.length_append]
    refine ⟨(jl ++ Simplify sqrt (ps.drop k) epsilon ++ jr).drop
      (Simplify sqrt (ps.drop k) epsilon).length, ?_, rfl⟩
    simp only [List.length_drop, List.length_append]
    omega

end InPlace

/-- At tolerance `1` the window `[1, 4)` of `store` collapses in place: cells
`1` and `2` hold the two anchors, cell `3` keeps its old content, cells `0` and
`4` are untouched. -/
theorem SimplifyInPlace_store :
    SimplifyInPlace Real.sqrt 1 store 1 3 =
      some ([⟨9, 9, 9⟩, ⟨0, 0, 0⟩, ⟨2, 0, 2⟩, ⟨2, 0, 2⟩, ⟨8, 8, 8⟩], 2) := by
  have hsc : scan Real.sqrt ⟨0, 0, 0⟩ ⟨2, 0, 2⟩ ((store.drop 1).take 3) 0 (0, 0) = (1, 1) :=
    scan_tri
  rw [SimplifyInPlace_long Real.sqrt 1 store 1 3 (by decide) ⟨0, 0, 0⟩ ⟨2, 0, 2⟩ rfl rfl,
    hsc]
  simp [store]

/-- C13 (in-place storage reuse is safe): run on the window `[lo, hi)` of a
backing array, the in-place `Simplify` returns (it neither reads out of range
nor appends beyond the capacity) a window starting at `lo` whose contents are
the result of the pure `Simplify` on the window's original contents; the array
keeps its length and no cell outside `[lo, hi)` changes. -/
theorem SimplifyInPlace_safe [LinearOrderedField α] (sqrt : α → α) (epsilon : α)
    (arr : List (Point α)) (lo hi : Nat) (h1 : lo ≤ hi) (h2 : hi ≤ arr.length) :
    ∃ (arr2 : List (Point α)) (n : Nat),
      SimplifyInPlace sqrt epsilon arr lo (hi - lo) = some (arr2, n) ∧
      (arr2.drop lo).take n = Simplify sqrt ((arr.drop lo).take (hi - lo)) epsilon ∧
      arr2.length = arr.length ∧
      ∀ i : Nat, i < lo ∨ hi ≤ i → arr2[i]? = arr[i]? := by
  have hpre : (arr.take lo).length = lo := by rw [List.length_take]; omega
  have hwin : ((arr.drop lo).take (hi - lo)).length = hi - lo := by
    rw [List.length_take, List.length_drop]; omega
  have harr : arr = arr.take lo ++ (arr.drop lo).take (hi - lo) ++ arr.drop hi := by
    have e : arr.drop hi = (arr.drop lo).drop (hi - lo) := by
      rw [List.drop_drop]
      congr 1
      omega
    rw [e, List.append_assoc, List.take_append_drop, List.take_append_drop]
  obtain ⟨junk, hj, hres⟩ := SimplifyInPlace_window sqrt epsilon
    ((arr.drop lo).take (hi - lo)) (arr.take lo) (arr.drop hi)
  rw [← harr, hpre, hwin] at hres
  rw [hwin] at hj
  refine ⟨_, _, hres, ?_, ?_, ?_⟩
  · rw [List.append_assoc, List.drop_left' hpre, List.append_assoc]
    exact List.take_left' rfl
  · conv_rhs => rw [harr]
    simp only [List.length_append]
    omega
  · intro i hio
    rcases hio with hio | hio
    · rw [List.append_assoc, List.getElem?_append_left (by omega)]
      conv_rhs => rw [harr, List.append_assoc, List.getElem?_append_left (by omega)]
    · have hlen : (arr.take lo ++
          (Simplify sqrt ((arr.drop lo).take (hi - lo)) epsilon ++ junk)).length = hi := by
        simp only [List.length_append]
        omega
      have hlen2 : (arr.take lo ++ (arr.drop lo).take (hi - lo)).length = hi := by
        simp only [List.length_append]
        omega
      rw [List.getElem?_append_right (by omega), hlen]
      conv_rhs => rw [harr, List.getElem?_append_right (by omega), hlen2]

/-- Witness of C13 on the window `[1, 4)` of `store` at tolerance `1`. -/
theorem SimplifyInPlace_safe_witness :
    1 ≤ 4 ∧ 4 ≤ store.length ∧
    ∃ (arr2 : List (Point ℝ)) (n : Nat),
      SimplifyInPlace Real.sqrt 1 store 1 (4 - 1) = some (arr2, n) ∧
      (arr2.drop 1).take n = Simplify Real.sqrt ((store.drop 1).take (4 - 1)) 1 ∧
      arr2.length = store.length ∧
      ∀ i : Nat, i < 1 ∨ 4 ≤ i → arr2[i]? = store[i]? :=
  ⟨by decide, by decide, SimplifyInPlace_safe Real.sqrt 1 store 1 4 (by decide) (by decide)⟩



end rdp
